import Mathlib

/-!
# auth-methods: a verification development for `storage/handlers.go`

The Go file is a set of thin wrappers around `encoding/base64`, `crypto/hmac`,
`github.com/gofrs/uuid` and `github.com/dgrijalva/jwt-go` (version 3).  The wrappers are
embedded together with the library routines they call, because every property of the
wrappers is decided inside those routines.  The functions around `bcrypt` and the digest of
a file are not embedded.

Conventions of the embedding
* a Go `[]byte` and a Go `string` are both `List Byte` with `Byte = Fin 256`;
* a Go `int64` that is only compared is an `Int`;
* a Go `error` result is an `Except`; the texts of the errors of `handlers.go` are kept,
  those of the libraries are kept without the numbers they embed;
* a method with a pointer receiver that mutates `conf` returns the new configuration;
* a run-time panic is the result `none`;
* `time.Now()`, the random source, the table `randomBytes` and the JSON package are explicit
  arguments.
-/

namespace AuthMethods

/-! ## Bytes and strings -/

/-- A Go `byte`. -/
abbrev Byte := Fin 256

/-- A Go `[]byte`; also a Go `string`, which is a read-only byte sequence. -/
abbrev Bytes := List Byte

/-- The bytes of an ASCII string literal. -/
def ascii (s : String) : Bytes := s.toList.map (fun c => Fin.ofNat c.toNat)

/-- Equality of results is decidable, so that the definitions can be evaluated in
statements. -/
instance instDecidableEqExcept {ε α : Type} [DecidableEq ε] [DecidableEq α] :
    DecidableEq (Except ε α)
  | .ok a, .ok b => if h : a = b then isTrue (by rw [h]) else isFalse (by simpa using h)
  | .error a, .error b => if h : a = b then isTrue (by rw [h]) else isFalse (by simpa using h)
  | .ok _, .error _ => isFalse (by simp)
  | .error _, .ok _ => isFalse (by simp)

/-! ## `encoding/base64` -/

namespace base64

/-- An `Encoding` of the Go package: the 64-symbol alphabet (`encode [64]byte`), the padding
character (`padChar rune`, with `none` for `NoPadding`) and the `strict` flag.  The
`decodeMap [256]uint8` field of the Go struct is derived from the alphabet by `NewEncoding`
and is the function `Encoding.decodeMap` below. -/
structure Encoding where
  encode : Bytes
  padChar : Option Byte
  strict : Bool
deriving DecidableEq, Repr

/-- Alphabet `encodeStd` of the package. -/
def encodeStd : Bytes :=
  ascii "ABCDEFGHIJKLMNOPQRSTUVWXYZabcdefghijklmnopqrstuvwxyz0123456789+/"

/-- Alphabet `encodeURL` of the package. -/
def encodeURL : Bytes :=
  ascii "ABCDEFGHIJKLMNOPQRSTUVWXYZabcdefghijklmnopqrstuvwxyz0123456789-_"

/-- The constant `StdPadding = '='`. -/
def StdPadding : Byte := 61

/-- Package value `StdEncoding`. -/
def StdEncoding : Encoding := ⟨encodeStd, some StdPadding, false⟩

/-- Package value `URLEncoding`. -/
def URLEncoding : Encoding := ⟨encodeURL, some StdPadding, false⟩

/-- Package value `RawStdEncoding`. -/
def RawStdEncoding : Encoding := ⟨encodeStd, none, false⟩

/-- Package value `RawURLEncoding`. -/
def RawURLEncoding : Encoding := ⟨encodeURL, none, false⟩

/-- Method `Strict` of an encoding. -/
def Encoding.Strict (enc : Encoding) : Encoding := { enc with strict := true }

/-- The conditions `NewEncoding` and `WithPadding` enforce (they panic otherwise) together
with the documented one that the padding character is not a symbol of the alphabet: 64
distinct symbols, none of them a newline, and a padding character that is neither a newline
nor a symbol. -/
def Encoding.WellFormed (enc : Encoding) : Prop :=
  enc.encode.length = 64 ∧ enc.encode.Nodup ∧
  (10 : Byte) ∉ enc.encode ∧ (13 : Byte) ∉ enc.encode ∧
  ∀ p ∈ enc.padChar, p ∉ enc.encode ∧ p ≠ 10 ∧ p ≠ 13

instance (enc : Encoding) : Decidable enc.WellFormed :=
  inferInstanceAs (Decidable (_ ∧ _ ∧ _ ∧ _ ∧ _))

/-- Entry `enc.encode[i]` of the alphabet. -/
def Encoding.sym (enc : Encoding) (i : Nat) : Byte := enc.encode.getD i 0

/-- Entry `enc.decodeMap[b]`: the index of `b` in the alphabet, `0xff` for a byte that is
not a symbol. -/
def Encoding.decodeMap (enc : Encoding) (b : Byte) : Nat :=
  if b ∈ enc.encode then enc.encode.indexOf b else 0xff

/-- The padding written after a final block that is `k` symbols short of a quantum. -/
def Encoding.pad (enc : Encoding) (k : Nat) : Bytes :=
  match enc.padChar with
  | some p => List.replicate k p
  | none => []

/-- Method `Encode` (and `EncodeToString`): every 3 source bytes give 4 symbols, the
remaining 1 or 2 bytes give 2 or 3 symbols followed by the padding. -/
def Encoding.Encode (enc : Encoding) : Bytes → Bytes
  | [] => []
  | [b0] =>
      let val := b0.val <<< 16
      enc.sym (val >>> 18 &&& 0x3F) :: enc.sym (val >>> 12 &&& 0x3F) :: enc.pad 2
  | [b0, b1] =>
      let val := b0.val <<< 16 ||| b1.val <<< 8
      enc.sym (val >>> 18 &&& 0x3F) :: enc.sym (val >>> 12 &&& 0x3F) ::
        enc.sym (val >>> 6 &&& 0x3F) :: enc.pad 1
  | b0 :: b1 :: b2 :: rest =>
      let val := b0.val <<< 16 ||| b1.val <<< 8 ||| b2.val
      enc.sym (val >>> 18 &&& 0x3F) :: enc.sym (val >>> 12 &&& 0x3F) ::
        enc.sym (val >>> 6 &&& 0x3F) :: enc.sym (val &&& 0x3F) :: enc.Encode rest

/-- Method `EncodeToString`. -/
def Encoding.EncodeToString (enc : Encoding) (src : Bytes) : Bytes := enc.Encode src

/-- The error `CorruptInputError`; the input offset it carries is not tracked. -/
inductive CorruptInputError where
  | corrupt
deriving DecidableEq, Repr

/-- Whether a byte is `'\n'` or `'\r'`, which the decoder skips. -/
def isNewline (b : Byte) : Bool := b = 10 || b = 13

/-- The loop `for si < len(src) && (src[si] == '\n' || src[si] == '\r') { si++ }`. -/
def skipNewlines : Bytes → Bytes
  | [] => []
  | c :: src => if isNewline c then skipNewlines src else c :: src

/-- The 24-bit group of `decodeQuantum`:
`val := uint(dbuf[0])<<18 | uint(dbuf[1])<<12 | uint(dbuf[2])<<6 | uint(dbuf[3])`, where
the entries of `dbuf` that were not read are zero. -/
def assemble (dbuf : List Nat) : Nat :=
  dbuf.getD 0 0 <<< 18 ||| dbuf.getD 1 0 <<< 12 ||| dbuf.getD 2 0 <<< 6 ||| dbuf.getD 3 0

/-- The `switch dlen` at the end of `decodeQuantum`: of the 3 bytes of `val`, `dlen - 1` are
output; in strict mode the bytes that are not output must be zero. -/
def Encoding.emit (enc : Encoding) (val dlen : Nat) : Except CorruptInputError Bytes :=
  let b2 : Byte := Fin.ofNat (val >>> 0)
  let b1 : Byte := Fin.ofNat (val >>> 8)
  let b0 : Byte := Fin.ofNat (val >>> 16)
  match dlen with
  | 4 => .ok [b0, b1, b2]
  | 3 => if enc.strict && b2 != 0 then .error .corrupt else .ok [b0, b1]
  | 2 => if enc.strict && (b1 != 0 || b2 != 0) then .error .corrupt else .ok [b0]
  | _ => .ok []

/-- The conversion at the end of `decodeQuantum`: the 4 six-bit values of `dbuf` become 3
bytes. -/
def Encoding.quantum (enc : Encoding) (dbuf : List Nat) (dlen : Nat) :
    Except CorruptInputError Bytes :=
  enc.emit (assemble dbuf) dlen

/-- Method `Decode`: the loop over `decodeQuantum`, fused with the loop inside
`decodeQuantum` into one pass over the input.  `j` and `dbuf` are the loop variables of
`decodeQuantum` (the number of symbols read for the current quantum and their six-bit
values); when the fourth symbol of a quantum is read its 3 bytes are output and the next
quantum starts.  The fast paths of `Decode` (8 and 4 symbols at a time) compute the same
bytes as `decodeQuantum` on symbols of the alphabet and fall back to it otherwise, so they
are not represented.  The bytes decoded before an error are dropped: no caller in this
program reads them. -/
def Encoding.decodeFrom (enc : Encoding) : Bytes → Nat → List Nat →
    Except CorruptInputError Bytes
  | [], j, dbuf =>
      if j = 0 then .ok []
      else if j = 1 ∨ enc.padChar ≠ none then .error .corrupt
      else enc.quantum dbuf j
  | c :: src, j, dbuf =>
      let out := enc.decodeMap c
      if out ≠ 0xff then
        if j = 3 then
          match enc.quantum (dbuf ++ [out]) 4, enc.decodeFrom src 0 [] with
          | .ok bs, .ok rest => .ok (bs ++ rest)
          | _, _ => .error .corrupt
        else enc.decodeFrom src (j + 1) (dbuf ++ [out])
      else if isNewline c then enc.decodeFrom src j dbuf
      else if some c ≠ enc.padChar then .error .corrupt
      else
        -- the end of the data with padding
        match j with
        | 0 => .error .corrupt
        | 1 => .error .corrupt
        | 2 =>
            -- a second padding character is expected
            match skipNewlines src with
            | [] => .error .corrupt
            | c2 :: src2 =>
                if some c2 ≠ enc.padChar then .error .corrupt
                else if skipNewlines src2 ≠ [] then .error .corrupt
                else enc.quantum dbuf 2
        | _ =>
            if skipNewlines src ≠ [] then .error .corrupt
            else enc.quantum dbuf j

/-- Method `DecodeString`. -/
def Encoding.DecodeString (enc : Encoding) (s : Bytes) : Except CorruptInputError Bytes :=
  enc.decodeFrom s 0 []

end base64

/-! ## `crypto/sha256` and `crypto/sha512` -/

namespace sha2

/-- The parameters that distinguish the functions of the SHA-2 family (FIPS 180-4): the
word size, the round constants, the initial hash value, the rotation and shift amounts of
the four sigma functions, and the number of digest bytes. -/
structure Variant where
  wordBits : Nat
  K : List Nat
  init : List Nat
  bigSigma0 : Nat × Nat × Nat
  bigSigma1 : Nat × Nat × Nat
  smallSigma0 : Nat × Nat × Nat
  smallSigma1 : Nat × Nat × Nat
  Size : Nat

/-- Round constants of SHA-256: the first 32 bits of the fractional parts of the cube
roots of the first 64 primes. -/
def K256 : List Nat :=
  [0x428A2F98, 0x71374491, 0xB5C0FBCF, 0xE9B5DBA5, 0x3956C25B, 0x59F111F1,
   0x923F82A4, 0xAB1C5ED5, 0xD807AA98, 0x12835B01, 0x243185BE, 0x550C7DC3,
   0x72BE5D74, 0x80DEB1FE, 0x9BDC06A7, 0xC19BF174, 0xE49B69C1, 0xEFBE4786,
   0x0FC19DC6, 0x240CA1CC, 0x2DE92C6F, 0x4A7484AA, 0x5CB0A9DC, 0x76F988DA,
   0x983E5152, 0xA831C66D, 0xB00327C8, 0xBF597FC7, 0xC6E00BF3, 0xD5A79147,
   0x06CA6351, 0x14292967, 0x27B70A85, 0x2E1B2138, 0x4D2C6DFC, 0x53380D13,
   0x650A7354, 0x766A0ABB, 0x81C2C92E, 0x92722C85, 0xA2BFE8A1, 0xA81A664B,
   0xC24B8B70, 0xC76C51A3, 0xD192E819, 0xD6990624, 0xF40E3585, 0x106AA070,
   0x19A4C116, 0x1E376C08, 0x2748774C, 0x34B0BCB5, 0x391C0CB3, 0x4ED8AA4A,
   0x5B9CCA4F, 0x682E6FF3, 0x748F82EE, 0x78A5636F, 0x84C87814, 0x8CC70208,
   0x90BEFFFA, 0xA4506CEB, 0xBEF9A3F7, 0xC67178F2]

/-- Round constants of SHA-384 and SHA-512: the first 64 bits of the fractional parts of
the cube roots of the first 80 primes. -/
def K512 : List Nat :=
  [0x428A2F98D728AE22, 0x7137449123EF65CD, 0xB5C0FBCFEC4D3B2F, 0xE9B5DBA58189DBBC,
   0x3956C25BF348B538, 0x59F111F1B605D019, 0x923F82A4AF194F9B, 0xAB1C5ED5DA6D8118,
   0xD807AA98A3030242, 0x12835B0145706FBE, 0x243185BE4EE4B28C, 0x550C7DC3D5FFB4E2,
   0x72BE5D74F27B896F, 0x80DEB1FE3B1696B1, 0x9BDC06A725C71235, 0xC19BF174CF692694,
   0xE49B69C19EF14AD2, 0xEFBE4786384F25E3, 0x0FC19DC68B8CD5B5, 0x240CA1CC77AC9C65,
   0x2DE92C6F592B0275, 0x4A7484AA6EA6E483, 0x5CB0A9DCBD41FBD4, 0x76F988DA831153B5,
   0x983E5152EE66DFAB, 0xA831C66D2DB43210, 0xB00327C898FB213F, 0xBF597FC7BEEF0EE4,
   0xC6E00BF33DA88FC2, 0xD5A79147930AA725, 0x06CA6351E003826F, 0x142929670A0E6E70,
   0x27B70A8546D22FFC, 0x2E1B21385C26C926, 0x4D2C6DFC5AC42AED, 0x53380D139D95B3DF,
   0x650A73548BAF63DE, 0x766A0ABB3C77B2A8, 0x81C2C92E47EDAEE6, 0x92722C851482353B,
   0xA2BFE8A14CF10364, 0xA81A664BBC423001, 0xC24B8B70D0F89791, 0xC76C51A30654BE30,
   0xD192E819D6EF5218, 0xD69906245565A910, 0xF40E35855771202A, 0x106AA07032BBD1B8,
   0x19A4C116B8D2D0C8, 0x1E376C085141AB53, 0x2748774CDF8EEB99, 0x34B0BCB5E19B48A8,
   0x391C0CB3C5C95A63, 0x4ED8AA4AE3418ACB, 0x5B9CCA4F7763E373, 0x682E6FF3D6B2B8A3,
   0x748F82EE5DEFB2FC, 0x78A5636F43172F60, 0x84C87814A1F0AB72, 0x8CC702081A6439EC,
   0x90BEFFFA23631E28, 0xA4506CEBDE82BDE9, 0xBEF9A3F7B2C67915, 0xC67178F2E372532B,
   0xCA273ECEEA26619C, 0xD186B8C721C0C207, 0xEADA7DD6CDE0EB1E, 0xF57D4F7FEE6ED178,
   0x06F067AA72176FBA, 0x0A637DC5A2C898A6, 0x113F9804BEF90DAE, 0x1B710B35131C471B,
   0x28DB77F523047D84, 0x32CAAB7B40C72493, 0x3C9EBE0A15C9BEBC, 0x431D67C49C100D4C,
   0x4CC5D4BECB3E42B6, 0x597F299CFC657E2A, 0x5FCB6FAB3AD6FAEC, 0x6C44198C4A475817]

/-- Initial hash value of SHA-256. -/
def init256 : List Nat :=
  [0x6A09E667, 0xBB67AE85, 0x3C6EF372, 0xA54FF53A,
   0x510E527F, 0x9B05688C, 0x1F83D9AB, 0x5BE0CD19]

/-- Initial hash value of SHA-384. -/
def init384 : List Nat :=
  [0xCBBB9D5DC1059ED8, 0x629A292A367CD507, 0x9159015A3070DD17, 0x152FECD8F70E5939,
   0x67332667FFC00B31, 0x8EB44A8768581511, 0xDB0C2E0D64F98FA7, 0x47B5481DBEFA4FA4]

/-- Initial hash value of SHA-512. -/
def init512 : List Nat :=
  [0x6A09E667F3BCC908, 0xBB67AE8584CAA73B, 0x3C6EF372FE94F82B, 0xA54FF53A5F1D36F1,
   0x510E527FADE682D1, 0x9B05688C2B3E6C1F, 0x1F83D9ABFB41BD6B, 0x5BE0CD19137E2179]

/-- Variant SHA-256. -/
def SHA256 : Variant :=
  ⟨32, K256, init256, (2, 13, 22), (6, 11, 25), (7, 18, 3), (17, 19, 10), 32⟩

/-- Variant SHA-384: the function of SHA-512 with another initial value, truncated. -/
def SHA384 : Variant :=
  ⟨64, K512, init384, (28, 34, 39), (14, 18, 41), (1, 8, 7), (19, 61, 6), 48⟩

/-- Variant SHA-512. -/
def SHA512 : Variant :=
  ⟨64, K512, init512, (28, 34, 39), (14, 18, 41), (1, 8, 7), (19, 61, 6), 64⟩

/-- Bytes of a word (4 or 8). -/
def Variant.wordBytes (v : Variant) : Nat := v.wordBits / 8

/-- Method `BlockSize`: 16 words. -/
def Variant.BlockSize (v : Variant) : Nat := 16 * v.wordBytes

/-- Reduction of a sum to the word size. -/
def Variant.wrap (v : Variant) (x : Nat) : Nat := x % 2 ^ v.wordBits

/-- Rotation to the right, `bits.RotateLeft(x, -n)`. -/
def Variant.rotr (v : Variant) (x n : Nat) : Nat :=
  v.wrap (x >>> n ||| x <<< (v.wordBits - n))

/-- The functions `Σ0` and `Σ1`: three rotations. -/
def Variant.bigSigma (v : Variant) (r : Nat × Nat × Nat) (x : Nat) : Nat :=
  v.rotr x r.1 ^^^ v.rotr x r.2.1 ^^^ v.rotr x r.2.2

/-- The functions `σ0` and `σ1`: two rotations and a shift. -/
def Variant.smallSigma (v : Variant) (r : Nat × Nat × Nat) (x : Nat) : Nat :=
  v.rotr x r.1 ^^^ v.rotr x r.2.1 ^^^ (x >>> r.2.2)

/-- Big-endian bytes of `x`, `n` of them. -/
def bigEndian : Nat → Nat → Bytes
  | 0, _ => []
  | n + 1, x => bigEndian n (x / 256) ++ [Fin.ofNat x]

/-- The word a list of bytes is the big-endian representation of. -/
def fromBigEndian (bs : Bytes) : Nat := bs.foldl (fun acc b => acc * 256 + b.val) 0

/-- The padded message: the byte `0x80`, zero bytes up to the last two words of a block,
and the length of the message in bits (two words, big-endian). -/
def Variant.padMessage (v : Variant) (msg : Bytes) : Bytes :=
  let lenBytes := 2 * v.wordBytes
  let used := (msg.length + 1 + lenBytes) % v.BlockSize
  let zeros := if used = 0 then 0 else v.BlockSize - used
  msg ++ [0x80] ++ List.replicate zeros 0 ++ bigEndian lenBytes (msg.length * 8)

/-- The first `n` words of a byte sequence. -/
def Variant.words (v : Variant) : Nat → Bytes → List Nat
  | 0, _ => []
  | n + 1, bs => fromBigEndian (bs.take v.wordBytes) :: v.words n (bs.drop v.wordBytes)

/-- The message schedule, most recent word first: `n` more words are added to `ws`, each
`w[i] = σ1(w[i-2]) + w[i-7] + σ0(w[i-15]) + w[i-16]`. -/
def Variant.schedule (v : Variant) : Nat → List Nat → List Nat
  | 0, ws => ws
  | n + 1, ws =>
      let w := v.wrap (v.smallSigma v.smallSigma1 (ws.getD 1 0) + ws.getD 6 0 +
        v.smallSigma v.smallSigma0 (ws.getD 14 0) + ws.getD 15 0)
      v.schedule n (w :: ws)

/-- The working variables `a, b, c, d, e, f, g, h`. -/
structure State where
  a : Nat
  b : Nat
  c : Nat
  d : Nat
  e : Nat
  f : Nat
  g : Nat
  h : Nat
deriving DecidableEq, Repr

/-- One round of the compression function with round constant `k` and schedule word `w`. -/
def Variant.round (v : Variant) (s : State) (k w : Nat) : State :=
  let mask := 2 ^ v.wordBits - 1
  let t1 := s.h + v.bigSigma v.bigSigma1 s.e + ((s.e &&& s.f) ^^^ ((s.e ^^^ mask) &&& s.g)) + k + w
  let t2 := v.bigSigma v.bigSigma0 s.a + ((s.a &&& s.b) ^^^ (s.a &&& s.c) ^^^ (s.b &&& s.c))
  ⟨v.wrap (t1 + t2), s.a, s.b, s.c, v.wrap (s.d + t1), s.e, s.f, s.g⟩

/-- All rounds: one per round constant. -/
def Variant.rounds (v : Variant) : List Nat → List Nat → State → State
  | k :: ks, w :: ws, s => v.rounds ks ws (v.round s k w)
  | _, _, s => s

/-- The block function: the hash value after one more block of 16 words. -/
def Variant.block (v : Variant) (h : State) (blk : Bytes) : State :=
  let w16 := v.words 16 blk
  let ws := (v.schedule (v.K.length - 16) w16.reverse).reverse
  let s := v.rounds v.K ws h
  ⟨v.wrap (h.a + s.a), v.wrap (h.b + s.b), v.wrap (h.c + s.c), v.wrap (h.d + s.d),
   v.wrap (h.e + s.e), v.wrap (h.f + s.f), v.wrap (h.g + s.g), v.wrap (h.h + s.h)⟩

/-- The hash value after `n` blocks of the padded message. -/
def Variant.blocks (v : Variant) : Nat → State → Bytes → State
  | 0, h, _ => h
  | n + 1, h, bs => v.blocks n (v.block h (bs.take v.BlockSize)) (bs.drop v.BlockSize)

/-- The digest of a message: `h.Write(msg)` followed by `h.Sum(nil)` on a new hash. -/
def Variant.Sum (v : Variant) (msg : Bytes) : Bytes :=
  let padded := v.padMessage msg
  let h0 : State := ⟨v.init.getD 0 0, v.init.getD 1 0, v.init.getD 2 0, v.init.getD 3 0,
    v.init.getD 4 0, v.init.getD 5 0, v.init.getD 6 0, v.init.getD 7 0⟩
  let h := v.blocks (padded.length / v.BlockSize) h0 padded
  ([h.a, h.b, h.c, h.d, h.e, h.f, h.g, h.h].flatMap (bigEndian v.wordBytes)).take v.Size

end sha2

/-! ## `crypto/subtle` and `crypto/hmac` -/

/-- A hash function behind the interface `hash.Hash`: its `Size`, its `BlockSize`, and the
digest `Sum(nil)` returns after the given bytes were written to a new (or reset) hash. -/
structure Hash where
  Size : Nat
  BlockSize : Nat
  Sum : Bytes → Bytes

/-- The hash functions of `crypto/sha256` and `crypto/sha512` as `hash.Hash` values. -/
def sha2.Variant.toHash (v : sha2.Variant) : Hash := ⟨v.Size, v.BlockSize, v.Sum⟩

namespace subtle

/-- Function `ConstantTimeByteEq`: `int((uint32(x^y) - 1) >> 31)`. -/
def ConstantTimeByteEq (x y : Byte) : Nat :=
  (((x ^^^ y).val + 2 ^ 32 - 1) % 2 ^ 32) >>> 31

/-- The loop `for i := 0; i < len(x); i++ { v |= x[i] ^ y[i] }` over two slices of the
same length. -/
def xorAll : Bytes → Bytes → Byte → Byte
  | a :: x, b :: y, v => xorAll x y (v ||| (a ^^^ b))
  | _, _, v => v

/-- Function `ConstantTimeCompare`: 1 if the two slices are equal, 0 otherwise, and 0 at
once if the lengths differ. -/
def ConstantTimeCompare (x y : Bytes) : Nat :=
  if x.length ≠ y.length then 0
  else ConstantTimeByteEq (xorAll x y 0) 0

end subtle

namespace hmac

/-- The value `hmac.New` returns: the two pads, the hash function, and the bytes written so
far to the inner hash (which start with the inner pad). -/
structure HMAC where
  opad : Bytes
  ipad : Bytes
  hash : Hash
  inner : Bytes

/-- Function `New`: a key longer than the block size is hashed first; the key is copied
into two zero blocks, which are xored with `0x36` and `0x5c`; the inner pad is written to
the inner hash. -/
def New (h : Hash) (key : Bytes) : HMAC :=
  let blocksize := h.BlockSize
  let key := if key.length > blocksize then h.Sum key else key
  let block := key.take blocksize ++ List.replicate (blocksize - key.length) 0
  let ipad := block.map (fun b => b ^^^ 0x36)
  let opad := block.map (fun b => b ^^^ 0x5c)
  ⟨opad, ipad, h, ipad⟩

/-- Method `Write`: the bytes go to the inner hash.  A `hash.Hash` never returns an error
from `Write`. -/
def HMAC.Write (m : HMAC) (p : Bytes) : HMAC × Except String Nat :=
  ({ m with inner := m.inner ++ p }, .ok p.length)

/-- Method `Sum`: the digest of the outer pad followed by the inner digest, appended to
`in`. -/
def HMAC.Sum (m : HMAC) (input : Bytes) : Bytes :=
  input ++ m.hash.Sum (m.opad ++ m.hash.Sum m.inner)

/-- Function `Equal`: `subtle.ConstantTimeCompare(mac1, mac2) == 1`. -/
def Equal (mac1 mac2 : Bytes) : Bool := subtle.ConstantTimeCompare mac1 mac2 == 1

end hmac

/-! ## `github.com/gofrs/uuid` -/

namespace uuid

/-- The constant `Size`: a UUID has 16 bytes. -/
def Size : Nat := 16

/-- The type `UUID [Size]byte`. -/
structure UUID where
  bytes : Bytes
  size_eq : bytes.length = Size

/-- The value `Nil`: the UUID of 16 zero bytes. -/
def Nil : UUID := ⟨List.replicate 16 0, rfl⟩

/-- Function `FromBytes` (through `UnmarshalBinary`): the input must have exactly 16
bytes. -/
def FromBytes (input : Bytes) : Except String UUID :=
  if h : input.length = Size then .ok ⟨input, h⟩
  else .error "uuid: UUID must be exactly 16 bytes long"

/-- Function `FromBytesOrNil`: as `FromBytes`, with `Nil` on an error. -/
def FromBytesOrNil (input : Bytes) : UUID :=
  match FromBytes input with
  | .ok u => u
  | .error _ => Nil

/-- Method `Bytes`. -/
def UUID.Bytes (u : UUID) : Bytes := u.bytes

end uuid

/-! ## `math/rand` -/

/-- A random source `*rand.Rand`: the sequence of raw values it will produce and the number
of values already drawn. -/
structure Rand where
  src : Nat → Nat
  pos : Nat

/-- Method `Intn` for a positive `n`: the next value, in `[0, n)`. -/
def Rand.Intn (r : Rand) (n : Nat) : Nat × Rand :=
  (r.src r.pos % n, { r with pos := r.pos + 1 })

/-! ## `github.com/dgrijalva/jwt-go` -/

namespace jwt

/-- Function `EncodeSegment`: `strings.TrimRight(base64.URLEncoding.EncodeToString(seg), "=")`. -/
def EncodeSegment (seg : Bytes) : Bytes :=
  ((base64.URLEncoding.EncodeToString seg).reverse.dropWhile (fun b => b = 61)).reverse

/-- Function `DecodeSegment`: the padding is added back before decoding. -/
def DecodeSegment (seg : Bytes) : Except base64.CorruptInputError Bytes :=
  let l := seg.length % 4
  let seg := if l > 0 then seg ++ List.replicate (4 - l) 61 else seg
  base64.URLEncoding.DecodeString seg

/-- The signing methods the package registers in its `init` functions. -/
inductive SigningMethod where
  | HS256 | HS384 | HS512
  | RS256 | RS384 | RS512
  | PS256 | PS384 | PS512
  | ES256 | ES384 | ES512
  | none
deriving DecidableEq, Repr

/-- Method `Alg`: the name under which the method is registered. -/
def SigningMethod.Alg : SigningMethod → Bytes
  | .HS256 => ascii "HS256" | .HS384 => ascii "HS384" | .HS512 => ascii "HS512"
  | .RS256 => ascii "RS256" | .RS384 => ascii "RS384" | .RS512 => ascii "RS512"
  | .PS256 => ascii "PS256" | .PS384 => ascii "PS384" | .PS512 => ascii "PS512"
  | .ES256 => ascii "ES256" | .ES384 => ascii "ES384" | .ES512 => ascii "ES512"
  | .none => ascii "none"

/-- All registered methods. -/
def signingMethods : List SigningMethod :=
  [.HS256, .HS384, .HS512, .RS256, .RS384, .RS512, .PS256, .PS384, .PS512,
   .ES256, .ES384, .ES512, .none]

/-- Function `GetSigningMethod`: the method registered under a name, if any. -/
def GetSigningMethod (alg : Bytes) : Option SigningMethod :=
  signingMethods.find? (fun m => m.Alg = alg)

/-- The hash function of an HMAC method (`SigningMethodHMAC.Hash`); `none` for the methods
of the other families. -/
def SigningMethod.hmacHash : SigningMethod → Option Hash
  | .HS256 => some sha2.SHA256.toHash
  | .HS384 => some sha2.SHA384.toHash
  | .HS512 => some sha2.SHA512.toHash
  | _ => Option.none

/-- The error of `Sign` for a key of type `[]byte` in a method that is not an HMAC method:
`ErrInvalidKey` in the RSA methods, `ErrInvalidKeyType` in the RSA-PSS and ECDSA methods,
`NoneSignatureTypeDisallowedError` in the method `none`. -/
def SigningMethod.signKeyError : SigningMethod → String
  | .RS256 | .RS384 | .RS512 => "key is invalid"
  | .none => "'none' signature type is not allowed"
  | _ => "key is of invalid type"

/-- The error of `Verify` for a key of type `[]byte` in a method that is not an HMAC
method: `ErrInvalidKeyType` in the RSA and ECDSA methods, `ErrInvalidKey` in the RSA-PSS
methods, `NoneSignatureTypeDisallowedError` in the method `none`. -/
def SigningMethod.verifyKeyError : SigningMethod → String
  | .PS256 | .PS384 | .PS512 => "key is invalid"
  | .none => "'none' signature type is not allowed"
  | _ => "key is of invalid type"

/-- Method `Sign` with a key of type `[]byte`.  An HMAC method returns the encoded tag of
the signing string; every other method rejects a `[]byte` key. -/
def SigningMethod.Sign (m : SigningMethod) (signingString : Bytes) (key : Bytes) :
    Except String Bytes :=
  match m.hmacHash with
  | some h =>
      let hasher := hmac.New h key
      let hasher := (hasher.Write signingString).1
      .ok (EncodeSegment (hasher.Sum []))
  | Option.none => .error m.signKeyError

/-- Method `Verify` with a key of type `[]byte`.  An HMAC method decodes the signature,
computes the tag of the signing string again and compares the two with `hmac.Equal`.  The
RSA, RSA-PSS and ECDSA methods decode the signature and then reject a `[]byte` key; the
method `none` rejects the key at once. -/
def SigningMethod.Verify (m : SigningMethod) (signingString signature : Bytes) (key : Bytes) :
    Except String Unit :=
  match m.hmacHash with
  | some h =>
      match DecodeSegment signature with
      | .error _ => .error "illegal base64 data"
      | .ok sig =>
          let hasher := hmac.New h key
          let hasher := (hasher.Write signingString).1
          if !hmac.Equal sig (hasher.Sum []) then .error "signature is invalid"
          else .ok ()
  | Option.none =>
      if m = .none then .error m.verifyKeyError
      else
        match DecodeSegment signature with
        | .error _ => .error "illegal base64 data"
        | .ok _ => .error m.verifyKeyError

/-- The part of `encoding/json` the package uses for a claims type `C`.  It is a parameter
of the embedding.
* `Marshal` is `json.Marshal(t.Claims)`;
* `Unmarshal` is `dec.Decode(&claims)` on the bytes of the claims segment, where `claims`
  points to a zero value;
* `UnmarshalHeader` is `json.Unmarshal(headerBytes, &token.Header)` followed by the lookup
  `token.Header["alg"].(string)`: an error for bytes that are not a JSON object, otherwise
  the string under `"alg"` if there is one. -/
structure JSON (C : Type) where
  Marshal : C → Except String Bytes
  Unmarshal : Bytes → Except String C
  UnmarshalHeader : Bytes → Except String (Option Bytes)

/-- The bytes `json.Marshal` writes for the header `{"typ": "JWT", "alg": alg}` that
`NewWithClaims` builds (the keys of a map are written in sorted order); `alg` is the name of
a registered method, which needs no escaping. -/
def marshalHeader (alg : Bytes) : Bytes :=
  ascii "\x7b\"alg\":\"" ++ alg ++ ascii "\",\"typ\":\"JWT\"\x7d"

/-- Function `strings.Split(s, sep)` for a separator of one byte. -/
def Split (sep : Byte) : Bytes → List Bytes
  | [] => [[]]
  | c :: s =>
      if c = sep then [] :: Split sep s
      else
        match Split sep s with
        | [] => [[c]]
        | p :: ps => (c :: p) :: ps

/-- Function `strings.Join(parts, sep)` for a separator of one byte. -/
def Join (sep : Byte) : List Bytes → Bytes
  | [] => []
  | [p] => p
  | p :: q :: ps => p ++ sep :: Join sep (q :: ps)

/-- The type `Token`, as far as it is read: the method, the claims, the signature and the
flag `Valid`.  Of the header only the entry `"alg"` is read, and it is kept in `Alg`. -/
structure Token (C : Type) where
  Raw : Bytes
  Method : SigningMethod
  Alg : Bytes
  Claims : C
  Signature : Bytes
  Valid : Bool

/-- Function `NewWithClaims`. -/
def NewWithClaims {C : Type} (method : SigningMethod) (claims : C) : Token C :=
  ⟨[], method, method.Alg, claims, [], false⟩

/-- Method `SigningString`: the encoded header, a dot, the encoded claims. -/
def Token.SigningString {C : Type} (J : JSON C) (t : Token C) : Except String Bytes :=
  match J.Marshal t.Claims with
  | .error e => .error e
  | .ok jsonValue =>
      .ok (Join 46 [EncodeSegment (marshalHeader t.Alg), EncodeSegment jsonValue])

/-- Method `SignedString`: the signing string, a dot, the signature. -/
def Token.SignedString {C : Type} (J : JSON C) (t : Token C) (key : Bytes) :
    Except String Bytes :=
  match t.SigningString J with
  | .error e => .error e
  | .ok sstr =>
      match t.Method.Sign sstr key with
      | .error e => .error e
      | .ok sig => .ok (Join 46 [sstr, sig])

/-- The bits of `ValidationError.Errors` that occur. -/
def ValidationErrorMalformed : Nat := 1 <<< 0
/-- Bit `ValidationErrorUnverifiable`. -/
def ValidationErrorUnverifiable : Nat := 1 <<< 1
/-- Bit `ValidationErrorSignatureInvalid`. -/
def ValidationErrorSignatureInvalid : Nat := 1 <<< 2
/-- Bit `ValidationErrorClaimsInvalid`. -/
def ValidationErrorClaimsInvalid : Nat := 1 <<< 10

/-- The type `ValidationError`: the inner error or the text, and the bit field. -/
structure ValidationError where
  Inner : Option String
  Errors : Nat
  text : String
deriving DecidableEq, Repr

/-- Method `Error` of a validation error. -/
def ValidationError.Error (e : ValidationError) : String :=
  match e.Inner with
  | some inner => inner
  | Option.none => if e.text ≠ "" then e.text else "token is invalid"

/-- Function `NewValidationError`. -/
def NewValidationError (errorText : String) (errorFlags : Nat) : ValidationError :=
  ⟨Option.none, errorFlags, errorText⟩

/-- Method `Parser.ParseUnverified` of the default parser: the token is split at the dots,
the header and the claims are decoded, and the method the header names is looked up.  The
result is the token and its three parts. -/
def ParseUnverified {C : Type} (J : JSON C) (tokenString : Bytes) :
    Except ValidationError (Token C × Bytes × Bytes × Bytes) :=
  match Split 46 tokenString with
  | [p0, p1, p2] =>
      match DecodeSegment p0 with
      | .error _ => .error ⟨some "illegal base64 data", ValidationErrorMalformed, ""⟩
      | .ok headerBytes =>
          match J.UnmarshalHeader headerBytes with
          | .error e => .error ⟨some e, ValidationErrorMalformed, ""⟩
          | .ok alg =>
              match DecodeSegment p1 with
              | .error _ => .error ⟨some "illegal base64 data", ValidationErrorMalformed, ""⟩
              | .ok claimBytes =>
                  match J.Unmarshal claimBytes with
                  | .error e => .error ⟨some e, ValidationErrorMalformed, ""⟩
                  | .ok claims =>
                      match alg with
                      | some method =>
                          match GetSigningMethod method with
                          | Option.none =>
                              .error (NewValidationError "signing method (alg) is unavailable."
                                ValidationErrorUnverifiable)
                          | some m => .ok (⟨tokenString, m, method, claims, [], false⟩, p0, p1, p2)
                      | Option.none =>
                          .error (NewValidationError "signing method (alg) is unspecified."
                            ValidationErrorUnverifiable)
  | _ =>
      .error (NewValidationError "token contains an invalid number of segments"
        ValidationErrorMalformed)

/-- Function `ParseWithClaims` (the default parser: no list of valid methods, claims
validation not skipped).  `valid` is the method `Valid` of the claims type.  The key
function is asked for the key; then the claims are validated and the signature is verified,
and the token is valid if neither set an error bit. -/
def ParseWithClaims {C : Type} (J : JSON C) (valid : C → Except String Unit)
    (tokenString : Bytes) (keyFunc : Token C → Except String Bytes) :
    Except ValidationError (Token C) :=
  match ParseUnverified J tokenString with
  | .error e => .error e
  | .ok (token, p0, p1, p2) =>
      match keyFunc token with
      | .error e => .error ⟨some e, ValidationErrorUnverifiable, ""⟩
      | .ok key =>
          let vErr : ValidationError :=
            match valid token.Claims with
            | .error e => ⟨some e, ValidationErrorClaimsInvalid, ""⟩
            | .ok _ => ⟨Option.none, 0, ""⟩
          let token := { token with Signature := p2 }
          let vErr : ValidationError :=
            match token.Method.Verify (Join 46 [p0, p1]) token.Signature key with
            | .error e =>
                { vErr with Inner := some e,
                            Errors := vErr.Errors ||| ValidationErrorSignatureInvalid }
            | .ok _ => vErr
          if vErr.Errors = 0 then .ok { token with Valid := true }
          else .error vErr

/-- Function `verifyExp`, which `StandardClaims.VerifyExpiresAt` calls with the field
`ExpiresAt`. -/
def verifyExp (exp now : Int) (required : Bool) : Bool :=
  if exp = 0 then !required
  else decide (now ≤ exp)

end jwt

/-! ## The types of package `storage` -/

/-- Modelled from the spec: the declaration of `UserClaims` is not in `handlers.go`.  The
spec describes claims as a structured payload with at least an expiration timestamp and
arbitrary caller-defined fields; `handlers.go` calls the method `VerifyExpiresAt` that
`jwt.StandardClaims` provides, which reads the field `ExpiresAt int64`.  `F` is the type of
all the other fields. -/
structure UserClaims (F : Type) where
  ExpiresAt : Int
  fields : F
deriving DecidableEq, Repr

/-- Method `VerifyExpiresAt` that `UserClaims` takes from the embedded
`jwt.StandardClaims`. -/
def UserClaims.VerifyExpiresAt {F : Type} (u : UserClaims F) (cmp : Int) (req : Bool) : Bool :=
  jwt.verifyExp u.ExpiresAt cmp req

/-- Modelled from the spec: the declaration of the HMAC part of the configuration is not in
`handlers.go`; the fields are those `handlers.go` uses.  `HashAlgorithm` is read for its
`Size()`, `HashMethod` is the `func() hash.Hash` given to `hmac.New`, and `HmacSigner` holds
the last signer. -/
structure HmacConf where
  HashAlgorithm : Hash
  HashMethod : Hash
  HmacSigner : Option hmac.HMAC

/-- Modelled from the spec: the declaration of the JWT part of the configuration is not in
`handlers.go`; `JwtKeyMethod` is the signing method given to `jwt.NewWithClaims`. -/
structure JwtConf where
  JwtKeyMethod : jwt.SigningMethod

/-- Modelled from the spec: the declaration of `AppConfig` is not in `handlers.go`.  The
spec describes the configuration as holding the symmetric key bytes, the chosen hash and
signing algorithms and an optional text codec; the fields are those the modelled functions
of `handlers.go` read and write (`Base64Encoder` is `none` for a nil pointer). -/
structure AppConfig where
  Key : Bytes
  Rnd : Rand
  HmacConf : HmacConf
  JwtConf : JwtConf
  Base64Encoder : Option base64.Encoding

/-! ## The functions of `handlers.go` -/

/-- The loop of `KeyGenerator` with `n` iterations left: an index is drawn with
`conf.Rnd.Intn(2000)` and `randomBytes[j]` is appended to the key.  The package variable
`randomBytes` is not in `handlers.go` and is a parameter; an index outside of it is a
run-time panic, for which the result is `none`. -/
def keyLoop (randomBytes : Bytes) : Nat → AppConfig → Option AppConfig
  | 0, conf => some conf
  | n + 1, conf =>
      let (j, rnd) := conf.Rnd.Intn 2000
      match randomBytes[j]? with
      | Option.none => Option.none
      | some b => keyLoop randomBytes n { conf with Rnd := rnd, Key := conf.Key ++ [b] }

/-- Method `KeyGenerator`: one iteration for every `i` below
`conf.HmacConf.HashAlgorithm.Size()`. -/
def AppConfig.KeyGenerator (randomBytes : Bytes) (conf : AppConfig) : Option AppConfig :=
  keyLoop randomBytes conf.HmacConf.HashAlgorithm.Size conf

/-- Method `UUIDKeyGenerator`. -/
def AppConfig.UUIDKeyGenerator (randomBytes : Bytes) (conf : AppConfig) : Option AppConfig :=
  match conf.KeyGenerator randomBytes with
  | Option.none => Option.none
  | some conf =>
      let uid := uuid.FromBytesOrNil conf.Key
      some { conf with Key := uid.Bytes }

/-- Method `EncodingBase64`: the encoding is stored in the configuration and used. -/
def AppConfig.EncodingBase64 (conf : AppConfig) (encoding : base64.Encoding) (msg : Bytes) :
    AppConfig × Bytes :=
  let conf := { conf with Base64Encoder := some encoding }
  let encodedStr := encoding.EncodeToString msg
  (conf, encodedStr)

/-- Method `DecodingBase64`. -/
def AppConfig.DecodingBase64 (conf : AppConfig) (encodedStr : Bytes) : Except String Bytes :=
  match conf.Base64Encoder with
  | Option.none => .error "encoder is not provided"
  | some enc =>
      match enc.DecodeString encodedStr with
      | .error _ => .error "illegal base64 data"
      | .ok result => .ok result

/-- Method `HmacSigToken`: a new signer for `conf.Key` is stored in the configuration, the
token is written to it and its sum is returned. -/
def AppConfig.HmacSigToken (conf : AppConfig) (token : Bytes) :
    AppConfig × Except String Bytes :=
  let signer := hmac.New conf.HmacConf.HashMethod conf.Key
  let (signer, res) := signer.Write token
  let conf := { conf with HmacConf := { conf.HmacConf with HmacSigner := some signer } }
  match res with
  | .error err => (conf, .error err)
  | .ok _ => (conf, .ok (signer.Sum []))

/-- Method `CheckSignMsg`. -/
def AppConfig.CheckSignMsg (conf : AppConfig) (token oldSign : Bytes) :
    AppConfig × Except String Bool :=
  match conf.HmacSigToken token with
  | (conf, .error err) => (conf, .error err)
  | (conf, .ok newSign) =>
      let identifier := hmac.Equal oldSign newSign
      (conf, .ok identifier)

/-- Method `Valid` of `UserClaims`; `now` is `time.Now().UnixNano()`. -/
def UserClaims.Valid {F : Type} (u : UserClaims F) (now : Int) : Except String Unit :=
  let checkExpire := u.VerifyExpiresAt now true
  if !checkExpire then .error "token has expired"
  else .ok ()

/-- Method `CreateSignedToken`. -/
def AppConfig.CreateSignedToken {F : Type} (J : jwt.JSON (UserClaims F)) (conf : AppConfig)
    (uc : UserClaims F) : Except String Bytes :=
  let token := jwt.NewWithClaims conf.JwtConf.JwtKeyMethod uc
  match token.SignedString J conf.Key with
  | .error err => .error err
  | .ok signedToken => .ok signedToken

/-- The key function `ParseSignedToken` gives to the parser: the key is returned only for a
token whose method is `HS512`. -/
def AppConfig.keyFunc {F : Type} (conf : AppConfig) (t : jwt.Token (UserClaims F)) :
    Except String Bytes :=
  if t.Method.Alg ≠ jwt.SigningMethod.HS512.Alg then
    .error "invalid signing signing algorithm"
  else .ok conf.Key

/-- Method `ParseSignedToken`; `now` is the reading of the clock when the claims are
validated. -/
def AppConfig.ParseSignedToken {F : Type} (J : jwt.JSON (UserClaims F)) (conf : AppConfig)
    (now : Int) (signedToken : Bytes) : Except String (UserClaims F) :=
  match jwt.ParseWithClaims J (fun u => u.Valid now) signedToken conf.keyFunc with
  | .error err => .error ("error in parsing token : " ++ err.Error)
  | .ok token =>
      if !token.Valid then .error "error in parsing token : token is invalid"
      else .ok token.Claims

/-! ## A JSON codec for claims that carry only an expiration time -/

/-- The decimal digits of a natural number. -/
def decimal (n : Nat) : Bytes := (Nat.toDigits 10 n).map (fun c => Fin.ofNat c.toNat)

/-- The JSON number `encoding/json` writes for an `int64`. -/
def marshalInt (i : Int) : Bytes :=
  if i < 0 then 45 :: decimal i.natAbs else decimal i.natAbs

/-- The natural number a non-empty sequence of decimal digits denotes. -/
def parseDigits : Bytes → Option Nat → Option Nat
  | [], acc => acc
  | c :: s, acc =>
      if 48 ≤ c.val ∧ c.val ≤ 57 then parseDigits s (some (acc.getD 0 * 10 + (c.val - 48)))
      else Option.none

/-- The integer a JSON number without fraction and exponent denotes. -/
def parseInt (s : Bytes) : Option Int :=
  match s with
  | 45 :: r => (parseDigits r Option.none).map (fun n => - (n : Int))
  | _ => (parseDigits s Option.none).map (fun n => (n : Int))

/-- What is left of `s` after the prefix `p`, if `s` starts with it. -/
def stripPrefix (p s : Bytes) : Option Bytes :=
  if p.isPrefixOf s then some (s.drop p.length) else Option.none

/-- What is left of `s` before the suffix `p`, if `s` ends with it. -/
def stripSuffix (p s : Bytes) : Option Bytes :=
  (stripPrefix p.reverse s.reverse).map List.reverse

/-- A codec for `UserClaims` without further fields, for the wire forms `encoding/json`
writes for such claims and for the headers of `marshalHeader`: the field `ExpiresAt` has the
tag `json:"exp,omitempty"` in `jwt.StandardClaims`, so claims are written as `{"exp":N}`, or
as `{}` when `ExpiresAt` is zero.  Input of any other form is reported as an error (where
`encoding/json` accepts more, such as white space and unknown keys). -/
def expOnlyJSON : jwt.JSON (UserClaims Unit) where
  Marshal u :=
    if u.ExpiresAt = 0 then .ok (ascii "\x7b\x7d")
    else .ok (ascii "\x7b\"exp\":" ++ marshalInt u.ExpiresAt ++ ascii "\x7d")
  Unmarshal bs :=
    if bs = ascii "\x7b\x7d" then .ok ⟨0, ()⟩
    else
      match (stripPrefix (ascii "\x7b\"exp\":") bs).bind (stripSuffix (ascii "\x7d")) with
      | Option.none => .error "unsupported claims"
      | some num =>
          match parseInt num with
          | Option.none => .error "unsupported claims"
          | some n => .ok ⟨n, ()⟩
  UnmarshalHeader bs :=
    match (stripPrefix (ascii "\x7b\"alg\":\"") bs).bind
        (stripSuffix (ascii "\",\"typ\":\"JWT\"\x7d")) with
    | Option.none => .error "unsupported header"
    | some alg =>
        if (34 : Byte) ∈ alg ∨ (92 : Byte) ∈ alg then .error "unsupported header"
        else .ok (some alg)

/-! ## Notions used to state and to prove the properties -/

namespace base64

/-- The six-bit values `Encode` writes as symbols, without the padding. -/
def sextets : Bytes → List Nat
  | [] => []
  | [b0] =>
      let val := b0.val <<< 16
      [val >>> 18 &&& 0x3F, val >>> 12 &&& 0x3F]
  | [b0, b1] =>
      let val := b0.val <<< 16 ||| b1.val <<< 8
      [val >>> 18 &&& 0x3F, val >>> 12 &&& 0x3F, val >>> 6 &&& 0x3F]
  | b0 :: b1 :: b2 :: rest =>
      let val := b0.val <<< 16 ||| b1.val <<< 8 ||| b2.val
      (val >>> 18 &&& 0x3F) :: (val >>> 12 &&& 0x3F) :: (val >>> 6 &&& 0x3F) ::
        (val &&& 0x3F) :: sextets rest

/-- The bytes a quantum of `dlen` six-bit values stands for when the decoder is not strict:
those of `Encoding.emit` without the check of the unused bits. -/
def group (dbuf : List Nat) (dlen : Nat) : Bytes :=
  let val := assemble dbuf
  match dlen with
  | 4 => [Fin.ofNat (val >>> 16), Fin.ofNat (val >>> 8), Fin.ofNat (val >>> 0)]
  | 3 => [Fin.ofNat (val >>> 16), Fin.ofNat (val >>> 8)]
  | 2 => [Fin.ofNat (val >>> 16)]
  | _ => []

/-- The bytes a sequence of six-bit values stands for, quantum by quantum. -/
def unsextets : List Nat → Bytes
  | a :: b :: c :: d :: rest => group [a, b, c, d] 4 ++ unsextets rest
  | [a, b, c] => group [a, b, c] 3
  | [a, b] => group [a, b] 2
  | _ => []

end base64

namespace jwt

/-- The algorithm the header of a token string declares: the string under `"alg"` in the
decoded first segment of a token of three segments, if there is one. -/
def declaredAlg {C : Type} (J : JSON C) (tokenString : Bytes) : Option Bytes :=
  match Split 46 tokenString with
  | [p0, _, _] =>
      match DecodeSegment p0 with
      | .ok headerBytes =>
          match J.UnmarshalHeader headerBytes with
          | .ok alg => alg
          | .error _ => Option.none
      | .error _ => Option.none
  | _ => Option.none

/-- The tag of an HMAC method for a signing string: what `Sign` encodes and what `Verify`
compares the decoded signature with. -/
def tag (h : Hash) (key signingString : Bytes) : Bytes :=
  ((hmac.New h key).Write signingString).1.Sum []

end jwt

/-! ## Concrete inputs -/

/-- A table of 2000 bytes for the package variable `randomBytes`. -/
def sampleRandomBytes : Bytes := (List.range 2000).map (fun i => Fin.ofNat (i * 37 + 11))

/-- A random source. -/
def sampleRand : Rand := ⟨fun k => k * 7919 + 13, 0⟩

/-- A configuration with an empty key, SHA-256 for the HMAC functions, `HS512` for the
tokens and no encoder. -/
def sampleConf : AppConfig :=
  ⟨[], sampleRand, ⟨sha2.SHA256.toHash, sha2.SHA256.toHash, Option.none⟩, ⟨.HS512⟩, Option.none⟩

/-- The configuration `sampleConf` with the key `secret`. -/
def secretConf : AppConfig := { sampleConf with Key := ascii "secret" }

/-- The configuration `secretConf` with `HS256` as the signing method. -/
def hs256Conf : AppConfig := { secretConf with JwtConf := ⟨.HS256⟩ }

/-- Claims that expire at the start of the year 2100 (in nanoseconds since the epoch). -/
def sampleClaims : UserClaims Unit := ⟨4102444800000000000, ()⟩

/-- A reading of the clock in November 2023 (in nanoseconds since the epoch). -/
def sampleNow : Int := 1700000000000000000

/-- The token `HS512` gives for `sampleClaims` under the key `secret`. -/
def sampleToken : Bytes :=
  ascii ("eyJhbGciOiJIUzUxMiIsInR5cCI6IkpXVCJ9.eyJleHAiOjQxMDI0NDQ4MDAwMDAwMDAwMDB9." ++
    "bfggCu3QW3ccefnYPqlsdoRqGmsmcVl231eny4SVn1taSl-RvHUv5B0Yu_t-hRpGYhKqGVF05UgwhbzbV3vVzQ")

/-- The token `sampleToken` with the last character of its signature segment, `Q`,
replaced by `R`. -/
def tamperedToken : Bytes :=
  ascii ("eyJhbGciOiJIUzUxMiIsInR5cCI6IkpXVCJ9.eyJleHAiOjQxMDI0NDQ4MDAwMDAwMDAwMDB9." ++
    "bfggCu3QW3ccefnYPqlsdoRqGmsmcVl231eny4SVn1taSl-RvHUv5B0Yu_t-hRpGYhKqGVF05UgwhbzbV3vVzR")

/-- The token `HS256` gives for `sampleClaims` under the key `secret`. -/
def sampleTokenHS256 : Bytes :=
  ascii ("eyJhbGciOiJIUzI1NiIsInR5cCI6IkpXVCJ9.eyJleHAiOjQxMDI0NDQ4MDAwMDAwMDAwMDB9." ++
    "kvqzVOhEASEsLjRCas9PawUCq2PUmm7QSAmPHL47sZI")

/-- The HMAC-SHA256 tag of `hello` under the key `secret`. -/
def sampleTag : Bytes :=
  [0x88, 0xAA, 0xB3, 0xED, 0xE8, 0xD3, 0xAD, 0xF9, 0x4D, 0x26, 0xAB, 0x90, 0xD3, 0xBA, 0xFD, 0x4A,
   0x20, 0x83, 0x07, 0x0C, 0x3B, 0xCC, 0xE9, 0xC0, 0x14, 0xEE, 0x04, 0xA4, 0x43, 0x84, 0x7C, 0x0B]

/-- The token `sampleToken` with the first character of its signature segment, `b`,
replaced by `A`. -/
def brokenToken : Bytes :=
  ascii ("eyJhbGciOiJIUzUxMiIsInR5cCI6IkpXVCJ9.eyJleHAiOjQxMDI0NDQ4MDAwMDAwMDAwMDB9." ++
    "AfggCu3QW3ccefnYPqlsdoRqGmsmcVl231eny4SVn1taSl-RvHUv5B0Yu_t-hRpGYhKqGVF05UgwhbzbV3vVzQ")

end AuthMethods

/-! # Theorems -/

namespace AuthMethods

/-! ## Bit arithmetic over naturals -/

theorem and_63 (x : Nat) : x &&& 0x3F = x % 64 := Nat.and_pow_two_sub_one_eq_mod x 6

theorem shl_lor (a b k : Nat) (hb : b < 2 ^ k) : a <<< k ||| b = a * 2 ^ k + b := by
  rw [Nat.shiftLeft_eq, Nat.mul_comm, ← Nat.mul_add_lt_is_or hb]

/-- The 24-bit group the encoder builds from 3 bytes. -/
theorem val3_eq (a b c : Nat) (hb : b < 256) (hc : c < 256) :
    a <<< 16 ||| b <<< 8 ||| c = a * 65536 + b * 256 + c := by
  have h1 : a <<< 16 ||| b <<< 8 = (a * 256 + b) <<< 8 := by
    rw [Nat.shiftLeft_eq b, shl_lor a _ 16 (by omega), Nat.shiftLeft_eq]; ring
  rw [h1, shl_lor _ _ 8 (by omega)]; ring

/-- The 24-bit group the decoder builds from 4 six-bit values. -/
theorem val4_eq (a b c d : Nat) (hb : b < 64) (hc : c < 64) (hd : d < 64) :
    a <<< 18 ||| b <<< 12 ||| c <<< 6 ||| d = a * 262144 + b * 4096 + c * 64 + d := by
  have h1 : a <<< 18 ||| b <<< 12 = (a * 64 + b) <<< 12 := by
    rw [Nat.shiftLeft_eq b, shl_lor a _ 18 (by omega), Nat.shiftLeft_eq]; ring
  have h2 : (a * 64 + b) <<< 12 ||| c <<< 6 = ((a * 64 + b) * 64 + c) <<< 6 := by
    rw [Nat.shiftLeft_eq c, shl_lor _ _ 12 (by omega), Nat.shiftLeft_eq]; ring
  rw [h1, h2, shl_lor _ _ 6 (by omega)]; ring

theorem fin_ofNat_eq (x : Nat) (b : Byte) (h : x % 256 = b.val) : (Fin.ofNat x : Byte) = b := by
  apply Fin.ext
  simpa [Fin.ofNat] using h

namespace base64

/-! ## The alphabet of a well-formed encoding -/

theorem sym_mem (enc : Encoding) (hwf : enc.WellFormed) (i : Nat) (hi : i < 64) :
    enc.sym i ∈ enc.encode := by
  have hl : i < enc.encode.length := by rw [hwf.1]; exact hi
  unfold Encoding.sym
  rw [List.getD_eq_getElem _ _ hl]
  exact List.getElem_mem hl

theorem decodeMap_sym (enc : Encoding) (hwf : enc.WellFormed) (i : Nat) (hi : i < 64) :
    enc.decodeMap (enc.sym i) = i := by
  have hl : i < enc.encode.length := by rw [hwf.1]; exact hi
  unfold Encoding.decodeMap
  rw [if_pos (sym_mem enc hwf i hi)]
  unfold Encoding.sym
  rw [List.getD_eq_getElem _ _ hl]
  exact List.indexOf_getElem hwf.2.1 i hl

theorem decodeMap_of_not_mem (enc : Encoding) (b : Byte) (h : b ∉ enc.encode) :
    enc.decodeMap b = 0xff := by
  unfold Encoding.decodeMap
  rw [if_neg h]

theorem decodeMap_lt_of_mem (enc : Encoding) (hwf : enc.WellFormed) (b : Byte)
    (h : b ∈ enc.encode) : enc.decodeMap b < 64 := by
  unfold Encoding.decodeMap
  rw [if_pos h, ← hwf.1]
  exact List.indexOf_lt_length.mpr h

/-! ## Steps of the decoder -/

theorem decodeFrom_sym (enc : Encoding) (hwf : enc.WellFormed) (i : Nat) (hi : i < 64)
    (src : Bytes) (j : Nat) (dbuf : List Nat) (hj : j ≠ 3) :
    enc.decodeFrom (enc.sym i :: src) j dbuf = enc.decodeFrom src (j + 1) (dbuf ++ [i]) := by
  have hne : i ≠ 0xff := by omega
  simp [Encoding.decodeFrom, decodeMap_sym enc hwf i hi, hne, hj]

theorem decodeFrom_sym_last (enc : Encoding) (hwf : enc.WellFormed) (i : Nat) (hi : i < 64)
    (src : Bytes) (dbuf : List Nat) (bs rest : Bytes)
    (hq : enc.quantum (dbuf ++ [i]) 4 = .ok bs) (hr : enc.decodeFrom src 0 [] = .ok rest) :
    enc.decodeFrom (enc.sym i :: src) 3 dbuf = .ok (bs ++ rest) := by
  have hne : i ≠ 0xff := by omega
  simp [Encoding.decodeFrom, decodeMap_sym enc hwf i hi, hne, hq, hr]

/-- What the decoder does when it meets the padding the encoder wrote after `j` symbols of
the last quantum (`j` is 2 or 3). -/
theorem decodeFrom_pad (enc : Encoding) (hwf : enc.WellFormed) (j : Nat)
    (hj : j = 2 ∨ j = 3) (dbuf : List Nat) :
    enc.decodeFrom (enc.pad (4 - j)) j dbuf = enc.quantum dbuf j := by
  unfold Encoding.pad
  cases hp : enc.padChar with
  | none =>
      rcases hj with rfl | rfl <;> simp [Encoding.decodeFrom, hp]
  | some p =>
      obtain ⟨hmem, h10, h13⟩ := hwf.2.2.2.2 p (by simp [hp])
      have hnl : isNewline p = false := by simp [isNewline, h10, h13]
      have hdm := decodeMap_of_not_mem enc p hmem
      rcases hj with rfl | rfl
      · simp [Encoding.decodeFrom, hp, hdm, hnl, List.replicate, skipNewlines]
      · simp [Encoding.decodeFrom, hp, hdm, hnl, List.replicate, skipNewlines]

/-! ## The quantum conversion on the output of the encoder -/

/-- Splitting a 24-bit group into 4 six-bit values and joining them again. -/
theorem regroup (v : Nat) (hv : v < 2 ^ 24) :
    (v >>> 18 &&& 0x3F) <<< 18 ||| (v >>> 12 &&& 0x3F) <<< 12 ||| (v >>> 6 &&& 0x3F) <<< 6 |||
      (v &&& 0x3F) = v := by
  simp only [and_63, Nat.shiftRight_eq_div_pow]
  rw [val4_eq _ _ _ _ (Nat.mod_lt _ (by norm_num)) (Nat.mod_lt _ (by norm_num))
    (Nat.mod_lt _ (by norm_num))]
  omega

theorem assemble_of_val (v : Nat) (hv : v < 2 ^ 24) :
    assemble [v >>> 18 &&& 0x3F, v >>> 12 &&& 0x3F, v >>> 6 &&& 0x3F, v &&& 0x3F] = v := by
  simp only [assemble, List.getD_cons_zero, List.getD_cons_succ]
  exact regroup v hv

theorem quantum_full (enc : Encoding) (b0 b1 b2 : Byte) :
    enc.quantum
      [(b0.val <<< 16 ||| b1.val <<< 8 ||| b2.val) >>> 18 &&& 0x3F,
       (b0.val <<< 16 ||| b1.val <<< 8 ||| b2.val) >>> 12 &&& 0x3F,
       (b0.val <<< 16 ||| b1.val <<< 8 ||| b2.val) >>> 6 &&& 0x3F,
       (b0.val <<< 16 ||| b1.val <<< 8 ||| b2.val) &&& 0x3F] 4 = .ok [b0, b1, b2] := by
  have h0 := b0.isLt
  have h1 := b1.isLt
  have h2 := b2.isLt
  have hv := val3_eq b0.val b1.val b2.val h1 h2
  unfold Encoding.quantum
  rw [assemble_of_val _ (by rw [hv]; omega)]
  simp only [Encoding.emit, hv, Nat.shiftRight_eq_div_pow]
  rw [fin_ofNat_eq _ b0 (by omega), fin_ofNat_eq _ b1 (by omega), fin_ofNat_eq _ b2 (by omega)]

theorem quantum_two (enc : Encoding) (b0 b1 : Byte) :
    enc.quantum
      [(b0.val <<< 16 ||| b1.val <<< 8) >>> 18 &&& 0x3F,
       (b0.val <<< 16 ||| b1.val <<< 8) >>> 12 &&& 0x3F,
       (b0.val <<< 16 ||| b1.val <<< 8) >>> 6 &&& 0x3F] 3 = .ok [b0, b1] := by
  have h0 := b0.isLt
  have h1 := b1.isLt
  have hv : b0.val <<< 16 ||| b1.val <<< 8 = b0.val * 65536 + b1.val * 256 := by
    have := val3_eq b0.val b1.val 0 h1 (by norm_num)
    simpa using this
  have h3 : (b0.val <<< 16 ||| b1.val <<< 8) &&& 0x3F = 0 := by rw [hv, and_63]; omega
  have ha := assemble_of_val (b0.val <<< 16 ||| b1.val <<< 8) (by rw [hv]; omega)
  rw [h3] at ha
  have e : assemble [(b0.val <<< 16 ||| b1.val <<< 8) >>> 18 &&& 0x3F,
       (b0.val <<< 16 ||| b1.val <<< 8) >>> 12 &&& 0x3F,
       (b0.val <<< 16 ||| b1.val <<< 8) >>> 6 &&& 0x3F] =
      assemble [(b0.val <<< 16 ||| b1.val <<< 8) >>> 18 &&& 0x3F,
       (b0.val <<< 16 ||| b1.val <<< 8) >>> 12 &&& 0x3F,
       (b0.val <<< 16 ||| b1.val <<< 8) >>> 6 &&& 0x3F, 0] := by
    simp [assemble]
  unfold Encoding.quantum
  rw [e, ha]
  simp only [Encoding.emit, hv, Nat.shiftRight_eq_div_pow]
  have e0 : (Fin.ofNat ((b0.val * 65536 + b1.val * 256) / 2 ^ 16) : Byte) = b0 :=
    fin_ofNat_eq _ b0 (by omega)
  have e1 : (Fin.ofNat ((b0.val * 65536 + b1.val * 256) / 2 ^ 8) : Byte) = b1 :=
    fin_ofNat_eq _ b1 (by omega)
  have e2 : (Fin.ofNat ((b0.val * 65536 + b1.val * 256) / 2 ^ 0) : Byte) = 0 :=
    fin_ofNat_eq _ 0 (by simp; omega)
  rw [e0, e1, e2]
  simp

theorem quantum_one (enc : Encoding) (b0 : Byte) :
    enc.quantum [(b0.val <<< 16) >>> 18 &&& 0x3F, (b0.val <<< 16) >>> 12 &&& 0x3F] 2
      = .ok [b0] := by
  have h0 := b0.isLt
  have hv : b0.val <<< 16 = b0.val * 65536 := by rw [Nat.shiftLeft_eq]
  have h2 : (b0.val <<< 16) >>> 6 &&& 0x3F = 0 := by
    rw [hv, and_63, Nat.shiftRight_eq_div_pow]; omega
  have h3 : (b0.val <<< 16) &&& 0x3F = 0 := by rw [hv, and_63]; omega
  have ha := assemble_of_val (b0.val <<< 16) (by rw [hv]; omega)
  rw [h2, h3] at ha
  have e : assemble [(b0.val <<< 16) >>> 18 &&& 0x3F, (b0.val <<< 16) >>> 12 &&& 0x3F] =
      assemble [(b0.val <<< 16) >>> 18 &&& 0x3F, (b0.val <<< 16) >>> 12 &&& 0x3F, 0, 0] := by
    simp [assemble]
  unfold Encoding.quantum
  rw [e, ha]
  simp only [Encoding.emit, hv, Nat.shiftRight_eq_div_pow]
  have e0 : (Fin.ofNat (b0.val * 65536 / 2 ^ 16) : Byte) = b0 := fin_ofNat_eq _ b0 (by omega)
  have e1 : (Fin.ofNat (b0.val * 65536 / 2 ^ 8) : Byte) = 0 :=
    fin_ofNat_eq _ 0 (by simp; omega)
  have e2 : (Fin.ofNat (b0.val * 65536 / 2 ^ 0) : Byte) = 0 :=
    fin_ofNat_eq _ 0 (by simp; omega)
  rw [e0, e1, e2]
  simp

/-! ## Round trip of the library -/

/-- Induction over a list in blocks of 3, the way the encoder reads its source. -/
theorem blocks3_induction {α : Type} (motive : List α → Prop) (h0 : motive [])
    (h1 : ∀ a, motive [a]) (h2 : ∀ a b, motive [a, b])
    (h3 : ∀ a b c r, motive r → motive (a :: b :: c :: r)) : ∀ l, motive l
  | [] => h0
  | [a] => h1 a
  | [a, b] => h2 a b
  | a :: b :: c :: r => h3 a b c r (blocks3_induction motive h0 h1 h2 h3 r)

/-- Decoding what `Encode` wrote gives the source bytes back, for every well-formed
encoding (padded or not, strict or not). -/
theorem decode_encode (enc : Encoding) (hwf : enc.WellFormed) (src : Bytes) :
    enc.DecodeString (enc.EncodeToString src) = .ok src := by
  unfold Encoding.DecodeString Encoding.EncodeToString
  induction src using blocks3_induction with
  | h0 => simp [Encoding.Encode, Encoding.decodeFrom]
  | h1 b0 =>
      simp only [Encoding.Encode]
      rw [decodeFrom_sym enc hwf _ (by rw [and_63]; omega) _ _ _ (by norm_num),
        decodeFrom_sym enc hwf _ (by rw [and_63]; omega) _ _ _ (by norm_num)]
      rw [decodeFrom_pad enc hwf 2 (Or.inl rfl)]
      exact quantum_one enc b0
  | h2 b0 b1 =>
      simp only [Encoding.Encode]
      rw [decodeFrom_sym enc hwf _ (by rw [and_63]; omega) _ _ _ (by norm_num),
        decodeFrom_sym enc hwf _ (by rw [and_63]; omega) _ _ _ (by norm_num),
        decodeFrom_sym enc hwf _ (by rw [and_63]; omega) _ _ _ (by norm_num)]
      rw [decodeFrom_pad enc hwf 3 (Or.inr rfl)]
      exact quantum_two enc b0 b1
  | h3 b0 b1 b2 rest ih =>
      have hq := quantum_full enc b0 b1 b2
      have hs0 : (b0.val <<< 16 ||| b1.val <<< 8 ||| b2.val) >>> 18 &&& 0x3F < 64 := by
        rw [and_63]; omega
      have hs1 : (b0.val <<< 16 ||| b1.val <<< 8 ||| b2.val) >>> 12 &&& 0x3F < 64 := by
        rw [and_63]; omega
      have hs2 : (b0.val <<< 16 ||| b1.val <<< 8 ||| b2.val) >>> 6 &&& 0x3F < 64 := by
        rw [and_63]; omega
      have hs3 : (b0.val <<< 16 ||| b1.val <<< 8 ||| b2.val) &&& 0x3F < 64 := by
        rw [and_63]; omega
      simp only [Encoding.Encode]
      generalize (b0.val <<< 16 ||| b1.val <<< 8 ||| b2.val) >>> 18 &&& 0x3F = s0 at hq hs0 ⊢
      generalize (b0.val <<< 16 ||| b1.val <<< 8 ||| b2.val) >>> 12 &&& 0x3F = s1 at hq hs1 ⊢
      generalize (b0.val <<< 16 ||| b1.val <<< 8 ||| b2.val) >>> 6 &&& 0x3F = s2 at hq hs2 ⊢
      generalize (b0.val <<< 16 ||| b1.val <<< 8 ||| b2.val) &&& 0x3F = s3 at hq hs3 ⊢
      rw [decodeFrom_sym enc hwf s0 hs0 _ _ _ (by norm_num),
        decodeFrom_sym enc hwf s1 hs1 _ _ _ (by norm_num),
        decodeFrom_sym enc hwf s2 hs2 _ _ _ (by norm_num)]
      simp only [List.nil_append, List.cons_append]
      exact decodeFrom_sym_last enc hwf s3 hs3 (enc.Encode rest) [s0, s1, s2] [b0, b1, b2] rest
        hq ih

end base64

end AuthMethods

namespace AuthMethods

/-! ## `crypto/subtle` and `crypto/hmac` -/

theorem nat_or_eq_zero (a b : Nat) : a ||| b = 0 ↔ a = 0 ∧ b = 0 := by
  constructor
  · intro h
    have hb : ∀ i, a.testBit i = false ∧ b.testBit i = false := by
      intro i
      have := congrArg (fun x => x.testBit i) h
      simpa using this
    exact ⟨Nat.eq_of_testBit_eq (fun i => by simp [(hb i).1]),
      Nat.eq_of_testBit_eq (fun i => by simp [(hb i).2])⟩
  · rintro ⟨rfl, rfl⟩
    rfl

theorem byte_or_eq_zero (v w : Byte) : (v ||| w) = 0 ↔ v = 0 ∧ w = 0 := by
  have hv := v.isLt
  have hw := w.isLt
  have hlt : v.val ||| w.val < 256 := Nat.or_lt_two_pow (n := 8) hv hw
  have hval : (v ||| w).val = v.val ||| w.val := Nat.mod_eq_of_lt hlt
  constructor
  · intro h
    have h0 : v.val ||| w.val = 0 := by rw [← hval, h]; rfl
    obtain ⟨h1, h2⟩ := (nat_or_eq_zero _ _).mp h0
    exact ⟨Fin.ext h1, Fin.ext h2⟩
  · rintro ⟨rfl, rfl⟩
    rfl

theorem byte_xor_eq_zero (v w : Byte) : (v ^^^ w) = 0 ↔ v = w := by
  have hv := v.isLt
  have hw := w.isLt
  have hlt : v.val ^^^ w.val < 256 := Nat.xor_lt_two_pow (n := 8) hv hw
  have hval : (v ^^^ w).val = v.val ^^^ w.val := Nat.mod_eq_of_lt hlt
  constructor
  · intro h
    have h0 : v.val ^^^ w.val = 0 := by rw [← hval, h]; rfl
    exact Fin.ext (Nat.xor_eq_zero.mp h0)
  · rintro rfl
    apply Fin.ext
    rw [hval, Nat.xor_self]
    rfl

namespace subtle

theorem ConstantTimeByteEq_zero : ∀ v : Byte, ConstantTimeByteEq v 0 = 1 ↔ v = 0 := by
  decide!

/-- The accumulator of the comparison loop is zero at the end exactly when it was zero at
the start and the two slices are equal. -/
theorem xorAll_eq_zero (x : Bytes) : ∀ (y : Bytes) (v : Byte), x.length = y.length →
    (xorAll x y v = 0 ↔ v = 0 ∧ x = y) := by
  induction x with
  | nil =>
      intro y v hl
      cases y with
      | nil => simp [xorAll]
      | cons b y => simp at hl
  | cons a x ih =>
      intro y v hl
      cases y with
      | nil => simp at hl
      | cons b y =>
          have hl2 : x.length = y.length := by simpa using hl
          simp only [xorAll]
          rw [ih y _ hl2, byte_or_eq_zero, byte_xor_eq_zero]
          constructor
          · rintro ⟨⟨h1, h2⟩, h3⟩
            exact ⟨h1, by rw [h2, h3]⟩
          · rintro ⟨h1, h2⟩
            injection h2 with h2 h3
            exact ⟨⟨h1, h2⟩, h3⟩

theorem ConstantTimeCompare_eq_one (x y : Bytes) : ConstantTimeCompare x y = 1 ↔ x = y := by
  unfold ConstantTimeCompare
  by_cases hl : x.length = y.length
  · simp only [hl, ne_eq, not_true_eq_false, if_false]
    rw [ConstantTimeByteEq_zero, xorAll_eq_zero x y 0 hl]
    simp
  · simp only [hl, ne_eq, not_false_eq_true, if_true]
    constructor
    · intro h
      exact absurd h (by norm_num)
    · intro h
      exact absurd (congrArg List.length h) hl

end subtle

namespace hmac

/-- The constant-time comparison decides equality of the two byte sequences. -/
theorem Equal_eq_decide (mac1 mac2 : Bytes) : Equal mac1 mac2 = decide (mac1 = mac2) := by
  unfold Equal
  by_cases h : mac1 = mac2
  · rw [decide_eq_true h]
    simpa using (subtle.ConstantTimeCompare_eq_one mac1 mac2).mpr h
  · rw [decide_eq_false h]
    have := mt (subtle.ConstantTimeCompare_eq_one mac1 mac2).mp h
    simpa using this

end hmac

end AuthMethods

namespace AuthMethods

/-! ## Key generation -/

/-- What the loop of `KeyGenerator` leaves behind when it ends: `n` bytes were appended to
the key, and only the key and the random source changed. -/
theorem keyLoop_spec (rb : Bytes) : ∀ (n : Nat) (conf conf' : AppConfig),
    keyLoop rb n conf = some conf' →
    (∃ new : Bytes, new.length = n ∧ conf'.Key = conf.Key ++ new) ∧
      conf'.HmacConf = conf.HmacConf ∧ conf'.JwtConf = conf.JwtConf ∧
      conf'.Base64Encoder = conf.Base64Encoder := by
  intro n
  induction n with
  | zero =>
      intro conf conf' h
      simp only [keyLoop, Option.some.injEq] at h
      subst h
      exact ⟨⟨[], rfl, by simp⟩, rfl, rfl, rfl⟩
  | succ n ih =>
      intro conf conf' h
      simp only [keyLoop] at h
      split at h
      · exact absurd h (by simp)
      · rename_i b hb
        obtain ⟨⟨new, hlen, hkey⟩, h1, h2, h3⟩ := ih _ _ h
        refine ⟨⟨b :: new, by simp [hlen], ?_⟩, h1, h2, h3⟩
        rw [hkey]
        simp

/-- The loop ends when the table has an entry for every index that can be drawn. -/
theorem keyLoop_isSome (rb : Bytes) (hrb : 2000 ≤ rb.length) : ∀ (n : Nat) (conf : AppConfig),
    (keyLoop rb n conf).isSome = true := by
  intro n
  induction n with
  | zero => intro conf; rfl
  | succ n ih =>
      intro conf
      simp only [keyLoop]
      have hj : (conf.Rnd.Intn 2000).1 < rb.length := by
        have : (conf.Rnd.Intn 2000).1 < 2000 := Nat.mod_lt _ (by norm_num)
        omega
      rw [List.getElem?_eq_getElem hj]
      exact ih _

/-- The length of the key after `KeyGenerator`. -/
theorem KeyGenerator_length (rb : Bytes) (conf mid : AppConfig)
    (h : conf.KeyGenerator rb = some mid) :
    mid.Key.length = conf.Key.length + conf.HmacConf.HashAlgorithm.Size := by
  obtain ⟨⟨new, hlen, hkey⟩, _, _, _⟩ := keyLoop_spec rb _ conf mid h
  rw [hkey]
  simp [hlen]

end AuthMethods

namespace AuthMethods

/-! ## Claims about `Valid`, the HMAC functions, the codec and the key generators -/

/-- C2, as the code has it: `UserClaims.Valid` returns the error `token has expired` exactly
when `ExpiresAt` is zero or the clock reading `now` is strictly past `ExpiresAt`; in every
other case, the boundary `now = ExpiresAt ≠ 0` included, it returns no error. -/
theorem C2_valid_error_iff {F : Type} (u : UserClaims F) (now : Int) :
    (u.Valid now = .error "token has expired" ↔ (u.ExpiresAt = 0 ∨ u.ExpiresAt < now)) ∧
    (u.Valid now = .ok () ↔ (u.ExpiresAt ≠ 0 ∧ now ≤ u.ExpiresAt)) := by
  unfold UserClaims.Valid UserClaims.VerifyExpiresAt jwt.verifyExp
  by_cases h0 : u.ExpiresAt = 0
  · simp [h0]
  · by_cases h1 : now ≤ u.ExpiresAt
    · simp [h0, h1]
    · simp [h0, h1]
      omega

/-- C2 fails at the boundary: with `ExpiresAt = 1700000000000000000` and the clock at the
same instant, `now ≥ ExpiresAt` holds and `Valid` returns no error. -/
theorem C2_boundary_is_valid :
    (⟨1700000000000000000, ()⟩ : UserClaims Unit).ExpiresAt ≤ (1700000000000000000 : Int) ∧
    (⟨1700000000000000000, ()⟩ : UserClaims Unit).Valid 1700000000000000000 = .ok () := by
  decide

/-- C5: `CheckSignMsg` returns no error; its boolean is true exactly when `oldSign` is the
tag `HmacSigToken` computes for the token under the same configuration, so it is true for
that tag and false for an `oldSign` of another length.  The configuration that
`CheckSignMsg` leaves signs the token with the same tag. -/
theorem C5_CheckSignMsg_iff (conf : AppConfig) (token oldSign : Bytes) :
    ∃ tag : Bytes, (conf.HmacSigToken token).2 = .ok tag ∧
      (conf.CheckSignMsg token oldSign).2 = .ok (decide (oldSign = tag)) ∧
      (conf.CheckSignMsg token tag).2 = .ok true ∧
      (oldSign.length ≠ tag.length → (conf.CheckSignMsg token oldSign).2 = .ok false) ∧
      ((conf.CheckSignMsg token oldSign).1.HmacSigToken token).2 = .ok tag := by
  refine ⟨(hmac.New conf.HmacConf.HashMethod conf.Key |>.Write token).1.Sum [], rfl, ?_, ?_, ?_,
    rfl⟩
  · simp [AppConfig.CheckSignMsg, AppConfig.HmacSigToken, hmac.HMAC.Write, hmac.Equal_eq_decide]
  · simp [AppConfig.CheckSignMsg, AppConfig.HmacSigToken, hmac.HMAC.Write, hmac.Equal_eq_decide]
  · intro hl
    have hne : oldSign ≠ (hmac.New conf.HmacConf.HashMethod conf.Key |>.Write token).1.Sum [] :=
      fun h => hl (congrArg List.length h)
    simp only [hmac.HMAC.Write] at hne
    simp [AppConfig.CheckSignMsg, AppConfig.HmacSigToken, hmac.HMAC.Write, hmac.Equal_eq_decide,
      hne]

/-- C5 at a concrete input: under the key `secret` and HMAC-SHA256, the tag of `hello` is
accepted and a tag of one byte is answered with false, not with an error. -/
theorem C5_CheckSignMsg_witness :
    (secretConf.HmacSigToken (ascii "hello")).2 = .ok sampleTag ∧
    (secretConf.CheckSignMsg (ascii "hello") sampleTag).2 = .ok true ∧
    ([7] : Bytes).length ≠ sampleTag.length ∧
    (secretConf.CheckSignMsg (ascii "hello") [7]).2 = .ok false := by
  obtain ⟨tag, h1, _, h3, h4, _⟩ := C5_CheckSignMsg_iff secretConf (ascii "hello") [7]
  have ht : (secretConf.HmacSigToken (ascii "hello")).2 = .ok sampleTag := by decide!
  have e : tag = sampleTag := Except.ok.inj (h1.symm.trans ht)
  subst e
  exact ⟨ht, h3, by decide, h4 (by decide)⟩

/-- C6: for every well-formed encoding and every message, `DecodingBase64` applied to the
text `EncodingBase64` returned, in the configuration `EncodingBase64` left, returns the
bytes of the message and no error. -/
theorem C6_decode_encode (conf : AppConfig) (enc : base64.Encoding) (hwf : enc.WellFormed)
    (msg : Bytes) :
    (conf.EncodingBase64 enc msg).1.DecodingBase64 (conf.EncodingBase64 enc msg).2 = .ok msg := by
  simp only [AppConfig.EncodingBase64, AppConfig.DecodingBase64]
  rw [base64.decode_encode enc hwf msg]

/-- C6 at a concrete input: the standard encoding and the message `hello`. -/
theorem C6_decode_encode_witness :
    base64.StdEncoding.WellFormed ∧
    (sampleConf.EncodingBase64 base64.StdEncoding (ascii "hello")).1.DecodingBase64
      (sampleConf.EncodingBase64 base64.StdEncoding (ascii "hello")).2 = .ok (ascii "hello") :=
  ⟨by decide!, C6_decode_encode sampleConf base64.StdEncoding (by decide!) (ascii "hello")⟩

/-- C7, as the code has it: when `KeyGenerator` returns, `conf.Key` is the key from before
the call followed by as many new bytes as the digest size, so its length is the old length
plus the digest size, and is the digest size when the key was empty before the call; and
`KeyGenerator` returns whenever the table `randomBytes` has 2000 entries. -/
theorem C7_key_length (rb : Bytes) (conf : AppConfig) :
    (∀ conf', conf.KeyGenerator rb = some conf' →
      (∃ new : Bytes, new.length = conf.HmacConf.HashAlgorithm.Size ∧
        conf'.Key = conf.Key ++ new) ∧
      conf'.Key.length = conf.Key.length + conf.HmacConf.HashAlgorithm.Size ∧
      (conf.Key = [] → conf'.Key.length = conf'.HmacConf.HashAlgorithm.Size)) ∧
    (2000 ≤ rb.length → ∃ conf', conf.KeyGenerator rb = some conf') := by
  constructor
  · intro conf' h
    obtain ⟨⟨new, hlen, hkey⟩, h1, _, _⟩ := keyLoop_spec rb _ conf conf' h
    refine ⟨⟨new, hlen, hkey⟩, by rw [hkey]; simp [hlen], ?_⟩
    intro he
    rw [hkey, he, h1]
    simp [hlen]
  · intro hrb
    exact Option.isSome_iff_exists.mp (keyLoop_isSome rb hrb _ conf)

/-- C7 at a concrete input: the configuration with an empty key, a digest size of 32 and
the sample table; `KeyGenerator` returns with a key of 32 bytes. -/
theorem C7_key_length_witness :
    2000 ≤ sampleRandomBytes.length ∧ sampleConf.Key = [] ∧
    ∃ conf', sampleConf.KeyGenerator sampleRandomBytes = some conf' ∧
      conf'.Key.length = sampleConf.Key.length + 32 ∧
      conf'.Key.length = conf'.HmacConf.HashAlgorithm.Size := by
  have h := C7_key_length sampleRandomBytes sampleConf
  obtain ⟨conf', hc⟩ := h.2 (by decide!)
  exact ⟨by decide!, rfl, conf', hc, (h.1 conf' hc).2.1, (h.1 conf' hc).2.2 rfl⟩

/-- C7 fails after an earlier call: two calls of `KeyGenerator` on a configuration with an
empty key and a digest size of 32 leave a key of 64 bytes. -/
theorem C7_second_call_doubles :
    ((sampleConf.KeyGenerator sampleRandomBytes).bind
        (fun conf => conf.KeyGenerator sampleRandomBytes)).map
      (fun conf => (conf.Key.length, conf.HmacConf.HashAlgorithm.Size)) = some (64, 32) := by
  decide!

/-- C8, the code at the failing input: with a digest size of 32 the 32 generated bytes are
no UUID, and `UUIDKeyGenerator` returns normally with the key set to the 16 zero bytes of
the nil UUID; it has no way to report a failure. -/
theorem C8_nil_uuid_stored :
    (sampleConf.KeyGenerator sampleRandomBytes).map (fun conf => conf.Key.length) = some 32 ∧
    (sampleConf.UUIDKeyGenerator sampleRandomBytes).map (fun conf => conf.Key) =
      some (List.replicate 16 0) := by
  decide!

/-- C10: when `UUIDKeyGenerator` returns, `conf.Key` has exactly 16 bytes: the bytes
`KeyGenerator` left in `conf.Key` when those are 16, and 16 zero bytes otherwise; so from an
empty key and a digest size of 32 or 64 the key is all zeros, whatever the random source.
`UUIDKeyGenerator` returns whenever the table `randomBytes` has 2000 entries. -/
theorem C10_uuid_key (rb : Bytes) (conf : AppConfig) :
    (∀ conf', conf.UUIDKeyGenerator rb = some conf' →
      conf'.Key.length = 16 ∧
      ∃ mid, conf.KeyGenerator rb = some mid ∧
        (mid.Key.length = 16 → conf'.Key = mid.Key) ∧
        (mid.Key.length ≠ 16 → conf'.Key = List.replicate 16 0) ∧
        (conf.Key = [] →
          conf.HmacConf.HashAlgorithm.Size = 32 ∨ conf.HmacConf.HashAlgorithm.Size = 64 →
          conf'.Key = List.replicate 16 0)) ∧
    (2000 ≤ rb.length → ∃ conf', conf.UUIDKeyGenerator rb = some conf') := by
  constructor
  · intro conf' h
    unfold AppConfig.UUIDKeyGenerator at h
    cases hm : conf.KeyGenerator rb with
    | none => rw [hm] at h; exact absurd h (by simp)
    | some mid =>
        rw [hm] at h
        simp only [Option.some.injEq] at h
        subst h
        have h16 : mid.Key.length = 16 → (uuid.FromBytesOrNil mid.Key).Bytes = mid.Key := by
          intro hl
          simp [uuid.FromBytesOrNil, uuid.FromBytes, uuid.Size, hl, uuid.UUID.Bytes]
        have hne : mid.Key.length ≠ 16 →
            (uuid.FromBytesOrNil mid.Key).Bytes = List.replicate 16 0 := by
          intro hl
          simp [uuid.FromBytesOrNil, uuid.FromBytes, uuid.Size, hl, uuid.UUID.Bytes, uuid.Nil]
        refine ⟨(uuid.FromBytesOrNil mid.Key).size_eq, mid, rfl, h16, hne, ?_⟩
        intro he hs
        apply hne
        have hlen := ((KeyGenerator_length rb conf mid hm))
        rw [hlen, he]
        simp
        omega
  · intro hrb
    obtain ⟨mid, hmid⟩ := Option.isSome_iff_exists.mp (keyLoop_isSome rb hrb _ conf)
    unfold AppConfig.UUIDKeyGenerator
    unfold AppConfig.KeyGenerator
    rw [hmid]
    exact ⟨_, rfl⟩

/-- C10 at a concrete input: the configuration with an empty key, a digest size of 32 and
the sample table; `UUIDKeyGenerator` returns with a key of 16 zero bytes. -/
theorem C10_uuid_key_witness :
    2000 ≤ sampleRandomBytes.length ∧ sampleConf.Key = [] ∧
    sampleConf.HmacConf.HashAlgorithm.Size = 32 ∧
    ∃ conf', sampleConf.UUIDKeyGenerator sampleRandomBytes = some conf' ∧
      conf'.Key.length = 16 ∧ conf'.Key = List.replicate 16 0 := by
  have h := C10_uuid_key sampleRandomBytes sampleConf
  obtain ⟨conf', hc⟩ := h.2 (by decide!)
  obtain ⟨hl, _, _, _, _, hz⟩ := h.1 conf' hc
  exact ⟨by decide!, rfl, rfl, conf', hc, hl, hz rfl (Or.inl rfl)⟩

end AuthMethods

namespace AuthMethods

namespace base64

/-! ## The encoder in terms of six-bit values -/

theorem pad_zero (enc : Encoding) : enc.pad 0 = [] := by
  unfold Encoding.pad
  cases enc.padChar <;> rfl

theorem sextets_lt (bs : Bytes) : ∀ s ∈ sextets bs, s < 64 := by
  induction bs using blocks3_induction with
  | h0 => simp [sextets]
  | h1 a =>
      intro s hs
      simp only [sextets, List.mem_cons, List.mem_singleton, List.mem_nil_iff, or_false] at hs
      rcases hs with rfl | rfl <;> (rw [and_63]; exact Nat.mod_lt _ (by norm_num))
  | h2 a b =>
      intro s hs
      simp only [sextets, List.mem_cons, List.mem_singleton, List.mem_nil_iff, or_false] at hs
      rcases hs with rfl | rfl | rfl <;> (rw [and_63]; exact Nat.mod_lt _ (by norm_num))
  | h3 a b c r ih =>
      intro s hs
      simp only [sextets, List.mem_cons] at hs
      rcases hs with rfl | rfl | rfl | rfl | hs
      · rw [and_63]; exact Nat.mod_lt _ (by norm_num)
      · rw [and_63]; exact Nat.mod_lt _ (by norm_num)
      · rw [and_63]; exact Nat.mod_lt _ (by norm_num)
      · rw [and_63]; exact Nat.mod_lt _ (by norm_num)
      · exact ih s hs

theorem sextets_length (bs : Bytes) :
    (sextets bs).length =
      bs.length / 3 * 4 + (if bs.length % 3 = 0 then 0 else bs.length % 3 + 1) := by
  induction bs using blocks3_induction with
  | h0 => simp [sextets]
  | h1 a => simp [sextets]
  | h2 a b => simp [sextets]
  | h3 a b c r ih =>
      simp only [sextets, List.length_cons, ih]
      have h1 : (r.length + 1 + 1 + 1) / 3 = r.length / 3 + 1 := by omega
      have h2 : (r.length + 1 + 1 + 1) % 3 = r.length % 3 := by omega
      rw [h1, h2]
      omega

/-- `Encode` writes the symbols of the six-bit values and then the padding. -/
theorem Encode_eq_map (enc : Encoding) (bs : Bytes) :
    enc.Encode bs = (sextets bs).map enc.sym ++ enc.pad ((3 - bs.length % 3) % 3) := by
  induction bs using blocks3_induction with
  | h0 => simp [Encoding.Encode, sextets, pad_zero]
  | h1 a => simp [Encoding.Encode, sextets]
  | h2 a b => simp [Encoding.Encode, sextets]
  | h3 a b c r ih =>
      have h2 : (r.length + 1 + 1 + 1) % 3 = r.length % 3 := by omega
      simp only [Encoding.Encode, sextets, List.map_cons, List.cons_append, List.length_cons, ih,
        h2]

/-! ## The decoder on strings of symbols -/

theorem quantum_nonstrict (enc : Encoding) (hs : enc.strict = false) (dbuf : List Nat)
    (dlen : Nat) : enc.quantum dbuf dlen = .ok (group dbuf dlen) := by
  unfold Encoding.quantum Encoding.emit group
  split <;> simp [hs]

/-- Induction over a list in blocks of 4, the way the decoder reads its input. -/
theorem blocks4_induction {α : Type} (motive : List α → Prop) (h0 : motive [])
    (h1 : ∀ a, motive [a]) (h2 : ∀ a b, motive [a, b]) (h3 : ∀ a b c, motive [a, b, c])
    (h4 : ∀ a b c d r, motive r → motive (a :: b :: c :: d :: r)) : ∀ l, motive l
  | [] => h0
  | [a] => h1 a
  | [a, b] => h2 a b
  | [a, b, c] => h3 a b c
  | a :: b :: c :: d :: r => h4 a b c d r (blocks4_induction motive h0 h1 h2 h3 h4 r)

/-- A decoder that is not strict reads a string of symbols, padded to a multiple of 4, as
the bytes of its six-bit values. -/
theorem decodeFrom_map_sym (enc : Encoding) (hwf : enc.WellFormed) (hs : enc.strict = false)
    (sx : List Nat) : (∀ s ∈ sx, s < 64) → sx.length % 4 ≠ 1 →
    enc.decodeFrom (sx.map enc.sym ++ enc.pad ((4 - sx.length % 4) % 4)) 0 [] =
      .ok (unsextets sx) := by
  induction sx using blocks4_induction with
  | h0 =>
      intro _ _
      simp [pad_zero, Encoding.decodeFrom, unsextets]
  | h1 a =>
      intro _ h
      simp at h
  | h2 a b =>
      intro hlt _
      have ha : a < 64 := hlt a (by simp)
      have hb : b < 64 := hlt b (by simp)
      simp only [List.map_cons, List.map_nil, List.cons_append, List.nil_append]
      rw [decodeFrom_sym enc hwf a ha _ _ _ (by norm_num),
        decodeFrom_sym enc hwf b hb _ _ _ (by norm_num)]
      have := decodeFrom_pad enc hwf 2 (Or.inl rfl) ([] ++ [a] ++ [b])
      simp only [List.nil_append, List.cons_append] at this
      simp only [List.length_cons, List.length_nil, List.nil_append, List.cons_append]
      rw [this, quantum_nonstrict enc hs]
      rfl
  | h3 a b c =>
      intro hlt _
      have ha : a < 64 := hlt a (by simp)
      have hb : b < 64 := hlt b (by simp)
      have hc : c < 64 := hlt c (by simp)
      simp only [List.map_cons, List.map_nil, List.cons_append, List.nil_append]
      rw [decodeFrom_sym enc hwf a ha _ _ _ (by norm_num),
        decodeFrom_sym enc hwf b hb _ _ _ (by norm_num),
        decodeFrom_sym enc hwf c hc _ _ _ (by norm_num)]
      have := decodeFrom_pad enc hwf 3 (Or.inr rfl) ([] ++ [a] ++ [b] ++ [c])
      simp only [List.nil_append, List.cons_append] at this
      simp only [List.length_cons, List.length_nil, List.nil_append, List.cons_append]
      rw [this, quantum_nonstrict enc hs]
      rfl
  | h4 a b c d r ih =>
      intro hlt hlen
      have ha : a < 64 := hlt a (by simp)
      have hb : b < 64 := hlt b (by simp)
      have hc : c < 64 := hlt c (by simp)
      have hd : d < 64 := hlt d (by simp)
      have hr : ∀ s ∈ r, s < 64 := fun s hs => hlt s (by simp [hs])
      have hl4 : (a :: b :: c :: d :: r).length % 4 = r.length % 4 := by
        simp only [List.length_cons]; omega
      have hrl : r.length % 4 ≠ 1 := by rw [← hl4]; exact hlen
      rw [hl4]
      simp only [List.map_cons, List.cons_append]
      rw [decodeFrom_sym enc hwf a ha _ _ _ (by norm_num),
        decodeFrom_sym enc hwf b hb _ _ _ (by norm_num),
        decodeFrom_sym enc hwf c hc _ _ _ (by norm_num)]
      simp only [List.nil_append, List.cons_append]
      exact decodeFrom_sym_last enc hwf d hd _ [a, b, c] (group [a, b, c, d] 4) (unsextets r)
        (quantum_nonstrict enc hs _ _) (ih hr hrl)

/-! ## Decoding the six-bit values of the encoder -/

theorem URLEncoding_wf : URLEncoding.WellFormed := by decide!

theorem group_full (b0 b1 b2 : Byte) :
    group
      [(b0.val <<< 16 ||| b1.val <<< 8 ||| b2.val) >>> 18 &&& 0x3F,
       (b0.val <<< 16 ||| b1.val <<< 8 ||| b2.val) >>> 12 &&& 0x3F,
       (b0.val <<< 16 ||| b1.val <<< 8 ||| b2.val) >>> 6 &&& 0x3F,
       (b0.val <<< 16 ||| b1.val <<< 8 ||| b2.val) &&& 0x3F] 4 = [b0, b1, b2] := by
  have h := quantum_full URLEncoding b0 b1 b2
  rw [quantum_nonstrict URLEncoding rfl] at h
  exact Except.ok.inj h

theorem group_two (b0 b1 : Byte) :
    group
      [(b0.val <<< 16 ||| b1.val <<< 8) >>> 18 &&& 0x3F,
       (b0.val <<< 16 ||| b1.val <<< 8) >>> 12 &&& 0x3F,
       (b0.val <<< 16 ||| b1.val <<< 8) >>> 6 &&& 0x3F] 3 = [b0, b1] := by
  have h := quantum_two URLEncoding b0 b1
  rw [quantum_nonstrict URLEncoding rfl] at h
  exact Except.ok.inj h

theorem group_one (b0 : Byte) :
    group [(b0.val <<< 16) >>> 18 &&& 0x3F, (b0.val <<< 16) >>> 12 &&& 0x3F] 2 = [b0] := by
  have h := quantum_one URLEncoding b0
  rw [quantum_nonstrict URLEncoding rfl] at h
  exact Except.ok.inj h

theorem unsextets_sextets (bs : Bytes) : unsextets (sextets bs) = bs := by
  induction bs using blocks3_induction with
  | h0 => rfl
  | h1 a => simp only [sextets, unsextets]; exact group_one a
  | h2 a b => simp only [sextets, unsextets]; exact group_two a b
  | h3 a b c r ih =>
      simp only [sextets, unsextets, ih]
      rw [group_full a b c]
      rfl

end base64

end AuthMethods

namespace AuthMethods

namespace jwt

open base64

/-! ## Segments -/

theorem dropWhile_replicate_append {α : Type} (p : α → Bool) (a : α) (hp : p a = true)
    (k : Nat) (l : List α) : (List.replicate k a ++ l).dropWhile p = l.dropWhile p := by
  induction k with
  | zero => rfl
  | succ k ih => simp [List.replicate_succ, List.dropWhile_cons, hp, ih]

theorem dropWhile_of_all_not {α : Type} (p : α → Bool) (l : List α)
    (h : ∀ x ∈ l, p x = false) : l.dropWhile p = l := by
  cases l with
  | nil => rfl
  | cons x l => simp [List.dropWhile_cons, h x (by simp)]

theorem URL_pad (k : Nat) : URLEncoding.pad k = List.replicate k 61 := rfl

theorem URL_sym_mem (i : Nat) (hi : i < 64) : URLEncoding.sym i ∈ encodeURL :=
  sym_mem URLEncoding URLEncoding_wf i hi

theorem not_mem_encodeURL_pad : (61 : Byte) ∉ encodeURL := by decide!

theorem not_mem_encodeURL_dot : (46 : Byte) ∉ encodeURL := by decide!

/-- `EncodeSegment` writes the symbols of the six-bit values and no padding. -/
theorem EncodeSegment_eq_map (bs : Bytes) :
    EncodeSegment bs = (sextets bs).map URLEncoding.sym := by
  unfold EncodeSegment Encoding.EncodeToString
  rw [Encode_eq_map, URL_pad, List.reverse_append, List.reverse_replicate,
    dropWhile_replicate_append _ _ (by simp), dropWhile_of_all_not, List.reverse_reverse]
  intro x hx
  rw [List.mem_reverse, List.mem_map] at hx
  obtain ⟨s, hs, rfl⟩ := hx
  have hmem := URL_sym_mem s (sextets_lt bs s hs)
  have hne : URLEncoding.sym s ≠ 61 := fun h => not_mem_encodeURL_pad (h ▸ hmem)
  simpa using hne

theorem EncodeSegment_mem (bs : Bytes) : ∀ b ∈ EncodeSegment bs, b ∈ encodeURL := by
  intro b hb
  rw [EncodeSegment_eq_map, List.mem_map] at hb
  obtain ⟨s, hs, rfl⟩ := hb
  exact URL_sym_mem s (sextets_lt bs s hs)

theorem EncodeSegment_no_dot (bs : Bytes) : (46 : Byte) ∉ EncodeSegment bs :=
  fun h => not_mem_encodeURL_dot (EncodeSegment_mem bs _ h)

/-- `DecodeSegment` reads a string of symbols as the bytes of its six-bit values. -/
theorem DecodeSegment_map_sym (sx : List Nat) (hlt : ∀ s ∈ sx, s < 64)
    (hlen : sx.length % 4 ≠ 1) :
    DecodeSegment (sx.map URLEncoding.sym) = .ok (unsextets sx) := by
  have h := decodeFrom_map_sym URLEncoding URLEncoding_wf rfl sx hlt hlen
  unfold DecodeSegment Encoding.DecodeString
  rw [URL_pad] at h
  simp only [List.length_map]
  by_cases h0 : sx.length % 4 > 0
  · rw [if_pos h0]
    have : (4 - sx.length % 4) % 4 = 4 - sx.length % 4 := by omega
    rw [this] at h
    exact h
  · rw [if_neg h0]
    have : (4 - sx.length % 4) % 4 = 0 := by omega
    rw [this] at h
    simpa using h

theorem sextets_length_mod (bs : Bytes) : (sextets bs).length % 4 ≠ 1 := by
  rw [sextets_length]
  split <;> omega

/-- Round trip of a segment. -/
theorem DecodeSegment_EncodeSegment (bs : Bytes) :
    DecodeSegment (EncodeSegment bs) = .ok bs := by
  rw [EncodeSegment_eq_map, DecodeSegment_map_sym _ (sextets_lt bs) (sextets_length_mod bs),
    unsextets_sextets]

/-! ## Splitting and joining -/

theorem Split_of_not_mem (sep : Byte) (s : Bytes) (h : sep ∉ s) : Split sep s = [s] := by
  induction s with
  | nil => rfl
  | cons c s ih =>
      have hc : c ≠ sep := fun e => h (by simp [e])
      have hs : sep ∉ s := fun e => h (by simp [e])
      simp [Split, hc, ih hs]

theorem Split_append (sep : Byte) (a b : Bytes) (h : sep ∉ a) :
    Split sep (a ++ sep :: b) = a :: Split sep b := by
  induction a with
  | nil => simp [Split]
  | cons c a ih =>
      have hc : c ≠ sep := fun e => h (by simp [e])
      have ha : sep ∉ a := fun e => h (by simp [e])
      simp [Split, hc, ih ha]

theorem Split_Join3 (sep : Byte) (a b c : Bytes) (ha : sep ∉ a) (hb : sep ∉ b)
    (hc : sep ∉ c) : Split sep (Join sep [a, b, c]) = [a, b, c] := by
  simp only [Join]
  rw [Split_append sep a _ ha, Split_append sep b _ hb, Split_of_not_mem sep c hc]

theorem Join_Join (sep : Byte) (a b c : Bytes) :
    Join sep [Join sep [a, b], c] = Join sep [a, b, c] := by
  simp [Join]

/-! ## The digest sizes -/

theorem bigEndian_length (n x : Nat) : (sha2.bigEndian n x).length = n := by
  induction n generalizing x with
  | zero => rfl
  | succ n ih => simp [sha2.bigEndian, ih]

theorem SHA512_Sum_length (msg : Bytes) : (sha2.SHA512.Sum msg).length = 64 := by
  simp [sha2.Variant.Sum, List.flatMap, bigEndian_length, sha2.SHA512, sha2.Variant.wordBytes]

end jwt

end AuthMethods

namespace AuthMethods

namespace base64

/-! ## Changing one six-bit value -/

theorem fin_ofNat_inj (x y : Nat) : (Fin.ofNat x : Byte) = Fin.ofNat y ↔ x % 256 = y % 256 := by
  constructor
  · intro h
    have := congrArg Fin.val h
    simpa [Fin.ofNat] using this
  · intro h
    apply Fin.ext
    simpa [Fin.ofNat] using h

theorem assemble4 (a b c d : Nat) (hb : b < 64) (hc : c < 64) (hd : d < 64) :
    assemble [a, b, c, d] = a * 262144 + b * 4096 + c * 64 + d := by
  simp only [assemble, List.getD_cons_zero, List.getD_cons_succ]
  exact val4_eq a b c d hb hc hd

theorem assemble2 (a b : Nat) (hb : b < 64) :
    assemble [a, b] = a * 262144 + b * 4096 := by
  have h : assemble [a, b] = assemble [a, b, 0, 0] := by simp [assemble]
  rw [h, assemble4 a b 0 0 hb (by norm_num) (by norm_num)]
  omega

/-- A full quantum determines its four six-bit values. -/
theorem group4_inj (a b c d a' b' c' d' : Nat) (ha : a < 64) (hb : b < 64) (hc : c < 64)
    (hd : d < 64) (ha' : a' < 64) (hb' : b' < 64) (hc' : c' < 64) (hd' : d' < 64)
    (h : group [a, b, c, d] 4 = group [a', b', c', d'] 4) :
    a = a' ∧ b = b' ∧ c = c' ∧ d = d' := by
  simp only [group, assemble4 a b c d hb hc hd, assemble4 a' b' c' d' hb' hc' hd',
    Nat.shiftRight_eq_div_pow, List.cons.injEq, and_true, fin_ofNat_inj] at h
  obtain ⟨h1, h2, h3⟩ := h
  omega

/-- A last quantum of two values determines the first value and the two high bits of the
second; the four low bits of the second are not read. -/
theorem group2_eq_iff (a b a' b' : Nat) (ha : a < 64) (hb : b < 64) (ha' : a' < 64)
    (hb' : b' < 64) :
    group [a, b] 2 = group [a', b'] 2 ↔ a = a' ∧ b / 16 = b' / 16 := by
  simp only [group, assemble2 a b hb, assemble2 a' b' hb', Nat.shiftRight_eq_div_pow,
    List.cons.injEq, and_true, fin_ofNat_inj]
  omega

/-- Replacing one six-bit value by a different one changes the decoded bytes, unless the
value is the last one of a sequence that ends in a quantum of two values and the two high
bits stay the same. -/
theorem unsextets_set (sx : List Nat) : (∀ s ∈ sx, s < 64) → sx.length % 4 = 2 →
    ∀ i k, i < sx.length → k < 64 → k ≠ sx.getD i 0 →
      (unsextets (sx.set i k) = unsextets sx ↔
        (i + 1 = sx.length ∧ k / 16 = sx.getD i 0 / 16)) := by
  induction sx using blocks4_induction with
  | h0 => intro _ h; simp at h
  | h1 a => intro _ h; simp at h
  | h3 a b c => intro _ h; simp at h
  | h2 a b =>
      intro hlt _ i k hi hk hne
      have ha : a < 64 := hlt a (by simp)
      have hb : b < 64 := hlt b (by simp)
      have hi2 : i < 2 := hi
      rcases i with _ | _ | i
      · have hne' : k ≠ a := hne
        simp only [List.set_cons_zero, unsextets, List.getD_cons_zero, List.length_cons,
          List.length_nil]
        rw [group2_eq_iff k b a b hk hb ha hb]
        constructor
        · rintro ⟨h, _⟩; exact absurd h hne'
        · rintro ⟨h, _⟩; omega
      · simp only [List.set_cons_succ, List.set_cons_zero, unsextets, List.getD_cons_succ,
          List.getD_cons_zero, List.length_cons, List.length_nil]
        rw [group2_eq_iff a k a b ha hk ha hb]
        simp
      · omega
  | h4 a b c d r ih =>
      intro hlt hlen i k hi hk hne
      have ha : a < 64 := hlt a (by simp)
      have hb : b < 64 := hlt b (by simp)
      have hc : c < 64 := hlt c (by simp)
      have hd : d < 64 := hlt d (by simp)
      have hr : ∀ s ∈ r, s < 64 := fun s hs => hlt s (by simp [hs])
      have hrl : r.length % 4 = 2 := by
        simp only [List.length_cons] at hlen; omega
      have hr2 : 2 ≤ r.length := by omega
      rcases i with _ | _ | _ | _ | j
      · have hne' : k ≠ a := hne
        simp only [List.set_cons_zero, unsextets, List.length_cons]
        rw [List.append_left_inj]
        constructor
        · intro h
          exact absurd (group4_inj k b c d a b c d hk hb hc hd ha hb hc hd h).1 hne'
        · rintro ⟨h, _⟩; omega
      · have hne' : k ≠ b := hne
        simp only [List.set_cons_succ, List.set_cons_zero, unsextets, List.length_cons]
        rw [List.append_left_inj]
        constructor
        · intro h
          exact absurd (group4_inj a k c d a b c d ha hk hc hd ha hb hc hd h).2.1 hne'
        · rintro ⟨h, _⟩; omega
      · have hne' : k ≠ c := hne
        simp only [List.set_cons_succ, List.set_cons_zero, unsextets, List.length_cons]
        rw [List.append_left_inj]
        constructor
        · intro h
          exact absurd (group4_inj a b k d a b c d ha hb hk hd ha hb hc hd h).2.2.1 hne'
        · rintro ⟨h, _⟩; omega
      · have hne' : k ≠ d := hne
        simp only [List.set_cons_succ, List.set_cons_zero, unsextets, List.length_cons]
        rw [List.append_left_inj]
        constructor
        · intro h
          exact absurd (group4_inj a b c k a b c d ha hb hc hk ha hb hc hd h).2.2.2 hne'
        · rintro ⟨h, _⟩; omega
      · have hj : j < r.length := by simp only [List.length_cons] at hi; omega
        have hne' : k ≠ r.getD j 0 := hne
        simp only [List.set_cons_succ, unsextets, List.getD_cons_succ, List.length_cons]
        rw [List.append_right_inj, ih hr hrl j k hj hk hne']
        constructor
        · rintro ⟨h1, h2⟩; exact ⟨by omega, h2⟩
        · rintro ⟨h1, h2⟩; exact ⟨by omega, h2⟩

/-- The number of bytes a sequence of six-bit values stands for. -/
theorem unsextets_length (sx : List Nat) :
    (unsextets sx).length = sx.length / 4 * 3 + (sx.length % 4 - 1) := by
  induction sx using blocks4_induction with
  | h0 => rfl
  | h1 a => simp [unsextets]
  | h2 a b => simp [unsextets, group]
  | h3 a b c => simp [unsextets, group]
  | h4 a b c d r ih =>
      simp only [unsextets, List.length_append, ih, List.length_cons]
      have h1 : (r.length + 1 + 1 + 1 + 1) / 4 = r.length / 4 + 1 := by omega
      have h2 : (r.length + 1 + 1 + 1 + 1) % 4 = r.length % 4 := by omega
      rw [h1, h2]
      have : (group [a, b, c, d] 4).length = 3 := rfl
      omega

end base64

end AuthMethods

namespace AuthMethods

namespace jwt

open base64

/-! ## Signing methods -/

theorem GetSigningMethod_some (a : Bytes) (m : SigningMethod)
    (h : GetSigningMethod a = some m) : m.Alg = a := by
  unfold GetSigningMethod at h
  have := List.find?_some h
  simpa using this

theorem Alg_eq_HS512 (m : SigningMethod) (h : m.Alg = SigningMethod.HS512.Alg) :
    m = .HS512 := by
  cases m <;> first | rfl | exact absurd h (by decide!)

theorem Verify_HS512 (ss s key : Bytes) :
    SigningMethod.HS512.Verify ss s key = .ok () ↔
      DecodeSegment s = .ok (tag sha2.SHA512.toHash key ss) := by
  unfold SigningMethod.Verify
  simp only [SigningMethod.hmacHash]
  cases hd : DecodeSegment s with
  | error e => simp
  | ok sig =>
      simp only [hmac.Equal_eq_decide, tag]
      by_cases he : sig = ((hmac.New sha2.SHA512.toHash key).Write ss).1.Sum []
      · simp [he]
      · simp [he]

theorem tag_SHA512_length (key ss : Bytes) : (tag sha2.SHA512.toHash key ss).length = 64 := by
  simp [tag, hmac.HMAC.Sum, hmac.HMAC.Write, hmac.New, sha2.Variant.toHash, SHA512_Sum_length]

/-! ## Parsing -/

/-- What a successful `ParseUnverified` says about a token string of three segments. -/
theorem ParseUnverified_ok {F : Type} (J : JSON (UserClaims F)) (tok h p s : Bytes)
    (hs : Split 46 tok = [h, p, s]) (t0 : Token (UserClaims F)) (p0 p1 p2 : Bytes)
    (hu : ParseUnverified J tok = .ok (t0, p0, p1, p2)) :
    p0 = h ∧ p1 = p ∧ p2 = s ∧
      (∃ hb, DecodeSegment h = .ok hb ∧ J.UnmarshalHeader hb = .ok (some t0.Alg)) ∧
      GetSigningMethod t0.Alg = some t0.Method ∧
      (∃ cb, DecodeSegment p = .ok cb ∧ J.Unmarshal cb = .ok t0.Claims) := by
  unfold ParseUnverified at hu
  rw [hs] at hu
  simp only at hu
  cases h1 : DecodeSegment h with
  | error e => rw [h1] at hu; simp at hu
  | ok hb =>
      rw [h1] at hu
      simp only at hu
      cases h2 : J.UnmarshalHeader hb with
      | error e => rw [h2] at hu; simp at hu
      | ok alg =>
          rw [h2] at hu
          simp only at hu
          cases h3 : DecodeSegment p with
          | error e => rw [h3] at hu; simp at hu
          | ok cb =>
              rw [h3] at hu
              simp only at hu
              cases h4 : J.Unmarshal cb with
              | error e => rw [h4] at hu; simp at hu
              | ok c =>
                  rw [h4] at hu
                  simp only at hu
                  cases alg with
                  | none => simp [NewValidationError] at hu
                  | some method =>
                      simp only at hu
                      cases h5 : GetSigningMethod method with
                      | none => rw [h5] at hu; simp [NewValidationError] at hu
                      | some m =>
                          rw [h5] at hu
                          simp only [Except.ok.injEq, Prod.mk.injEq] at hu
                          obtain ⟨rfl, rfl, rfl, rfl⟩ := hu
                          exact ⟨rfl, rfl, rfl, ⟨hb, rfl, h2⟩, h5, ⟨cb, rfl, h4⟩⟩

/-- The key function returns the key of the configuration, and only for `HS512`. -/
theorem keyFunc_ok {F : Type} (conf : AppConfig) (t : Token (UserClaims F)) (key : Bytes)
    (hk : conf.keyFunc t = .ok key) : t.Method = .HS512 ∧ key = conf.Key := by
  unfold AppConfig.keyFunc at hk
  split at hk
  · simp at hk
  · rename_i hm
    simp only [Except.ok.injEq] at hk
    exact ⟨Alg_eq_HS512 _ (not_not.mp hm), hk.symm⟩

theorem or_SignatureInvalid_ne_zero (x : Nat) : x ||| ValidationErrorSignatureInvalid ≠ 0 := by
  intro hx
  have := (nat_or_eq_zero _ _).mp hx
  exact absurd this.2 (by decide)

/-- A token whose signature segment does not decode to the HMAC-SHA512 tag of its first two
segments is rejected. -/
theorem ParseSignedToken_error_of_bad_sig {F : Type} (J : JSON (UserClaims F))
    (conf : AppConfig) (now : Int) (tok h p s : Bytes) (hs : Split 46 tok = [h, p, s])
    (hbad : DecodeSegment s ≠ .ok (tag sha2.SHA512.toHash conf.Key (Join 46 [h, p]))) :
    ∃ e, conf.ParseSignedToken J now tok = .error e := by
  unfold AppConfig.ParseSignedToken
  cases hp : ParseWithClaims J (fun u => u.Valid now) tok conf.keyFunc with
  | error e => exact ⟨_, rfl⟩
  | ok t =>
      exfalso
      unfold ParseWithClaims at hp
      cases hu : ParseUnverified J tok with
      | error e => rw [hu] at hp; simp at hp
      | ok r =>
          obtain ⟨t0, p0, p1, p2⟩ := r
          rw [hu] at hp
          simp only at hp
          obtain ⟨rfl, rfl, rfl, _⟩ := ParseUnverified_ok J tok h p s hs t0 p0 p1 p2 hu
          cases hk : conf.keyFunc t0 with
          | error e => rw [hk] at hp; simp at hp
          | ok key =>
              rw [hk] at hp
              simp only at hp
              obtain ⟨hm, rfl⟩ := keyFunc_ok conf t0 key hk
              rw [hm] at hp
              cases hv : SigningMethod.HS512.Verify (Join 46 [p0, p1]) p2 conf.Key with
              | ok u => exact hbad ((Verify_HS512 _ _ _).mp hv)
              | error e =>
                  rw [hv] at hp
                  simp only at hp
                  split at hp
                  · rename_i h0
                    exact or_SignatureInvalid_ne_zero _ h0
                  · simp at hp

theorem ParseUnverified_split {F : Type} (J : JSON (UserClaims F)) (tok : Bytes)
    (t0 : Token (UserClaims F)) (p0 p1 p2 : Bytes)
    (hu : ParseUnverified J tok = .ok (t0, p0, p1, p2)) : Split 46 tok = [p0, p1, p2] := by
  have hu' := hu
  unfold ParseUnverified at hu'
  split at hu'
  · rename_i a b c hs
    obtain ⟨rfl, rfl, rfl, _⟩ := ParseUnverified_ok J tok a b c hs t0 p0 p1 p2 hu
    exact hs
  · simp [NewValidationError] at hu'

theorem Verify_congr (m : SigningMethod) (ss s s' key : Bytes)
    (hd : DecodeSegment s' = DecodeSegment s) : m.Verify ss s' key = m.Verify ss s key := by
  unfold SigningMethod.Verify
  rw [hd]

/-- Two token strings with the same first two segments, whose signature segments decode to
the same result, are treated alike. -/
theorem ParseSignedToken_congr {F : Type} (J : JSON (UserClaims F)) (conf : AppConfig)
    (now : Int) (tok tok' h p s s' : Bytes) (hs : Split 46 tok = [h, p, s])
    (hs' : Split 46 tok' = [h, p, s']) (hd : DecodeSegment s' = DecodeSegment s) :
    conf.ParseSignedToken J now tok' = conf.ParseSignedToken J now tok := by
  unfold AppConfig.ParseSignedToken ParseWithClaims ParseUnverified
  rw [hs, hs']
  simp only
  cases DecodeSegment h with
  | error e => rfl
  | ok hb =>
      simp only
      cases J.UnmarshalHeader hb with
      | error e => rfl
      | ok alg =>
          simp only
          cases DecodeSegment p with
          | error e => rfl
          | ok cb =>
              simp only
              cases J.Unmarshal cb with
              | error e => rfl
              | ok c =>
                  simp only
                  cases alg with
                  | none => rfl
                  | some method =>
                      simp only
                      cases GetSigningMethod method with
                      | none => rfl
                      | some m =>
                          simp only [AppConfig.keyFunc]
                          by_cases hm : m.Alg = SigningMethod.HS512.Alg
                          · simp only [hm, ne_eq, not_true_eq_false, if_false,
                              Verify_congr m _ s s' conf.Key hd]
                            have e1 : ValidationErrorSignatureInvalid ≠ 0 := by decide
                            have e2 := or_SignatureInvalid_ne_zero ValidationErrorClaimsInvalid
                            have e3 : ValidationErrorClaimsInvalid ≠ 0 := by decide
                            cases m.Verify (Join 46 [h, p]) s conf.Key <;>
                              cases c.Valid now <;> simp [e1, e2, e3]
                          · simp only [hm, ne_eq, not_false_eq_true, if_true]

/-- A token whose header does not declare `HS512` is rejected. -/
theorem ParseSignedToken_error_of_alg {F : Type} (J : JSON (UserClaims F)) (conf : AppConfig)
    (now : Int) (tok : Bytes) (halg : declaredAlg J tok ≠ some SigningMethod.HS512.Alg) :
    ∃ e, conf.ParseSignedToken J now tok = .error e := by
  unfold AppConfig.ParseSignedToken
  cases hp : ParseWithClaims J (fun u => u.Valid now) tok conf.keyFunc with
  | error e => exact ⟨_, rfl⟩
  | ok t =>
      exfalso
      unfold ParseWithClaims at hp
      cases hu : ParseUnverified J tok with
      | error e => rw [hu] at hp; simp at hp
      | ok r =>
          obtain ⟨t0, p0, p1, p2⟩ := r
          rw [hu] at hp
          simp only at hp
          have hs := ParseUnverified_split J tok t0 p0 p1 p2 hu
          obtain ⟨_, _, _, ⟨hb, hd, hh⟩, hg, _⟩ :=
            ParseUnverified_ok J tok p0 p1 p2 hs t0 p0 p1 p2 hu
          cases hk : conf.keyFunc t0 with
          | error e => rw [hk] at hp; simp at hp
          | ok key =>
              obtain ⟨hm, _⟩ := keyFunc_ok conf t0 key hk
              have ha : t0.Alg = SigningMethod.HS512.Alg := by
                rw [← GetSigningMethod_some _ _ hg, hm]
              apply halg
              unfold declaredAlg
              rw [hs]
              simp only [hd, hh, ha]

/-! ## Issuing -/

theorem hmacHash_some_iff (m : SigningMethod) :
    (∃ h, m.hmacHash = some h) ↔ m = .HS256 ∨ m = .HS384 ∨ m = .HS512 := by
  cases m <;> simp [SigningMethod.hmacHash]

/-- The token `CreateSignedToken` returns: the three encoded segments, joined by dots. -/
theorem CreateSignedToken_ok_iff {F : Type} (J : JSON (UserClaims F)) (conf : AppConfig)
    (uc : UserClaims F) (tok : Bytes) :
    conf.CreateSignedToken J uc = .ok tok ↔
      ∃ js hash, J.Marshal uc = .ok js ∧ conf.JwtConf.JwtKeyMethod.hmacHash = some hash ∧
        tok = Join 46 [EncodeSegment (marshalHeader conf.JwtConf.JwtKeyMethod.Alg),
          EncodeSegment js,
          EncodeSegment (tag hash conf.Key
            (Join 46 [EncodeSegment (marshalHeader conf.JwtConf.JwtKeyMethod.Alg),
              EncodeSegment js]))] := by
  unfold AppConfig.CreateSignedToken Token.SignedString Token.SigningString NewWithClaims
    SigningMethod.Sign
  simp only
  cases hM : J.Marshal uc with
  | error e => simp
  | ok js =>
      simp only
      cases hh : conf.JwtConf.JwtKeyMethod.hmacHash with
      | none => simp
      | some hash =>
          simp only [Except.ok.injEq, Option.some.injEq, exists_and_left, exists_eq_left', tag,
            Join_Join]
          constructor
          · intro h; exact h.symm
          · intro h; exact h.symm

end jwt

end AuthMethods

namespace AuthMethods

namespace jwt

open base64

/-! ## Tokens with a replaced signature character -/

theorem sym_decodeMap (enc : Encoding) (c : Byte) (hc : c ∈ enc.encode) :
    enc.sym (enc.decodeMap c) = c := by
  have hlt : enc.encode.indexOf c < enc.encode.length := List.indexOf_lt_length.mpr hc
  unfold Encoding.decodeMap Encoding.sym
  rw [if_pos hc, List.getD_eq_getElem _ _ hlt]
  exact List.getElem_indexOf hlt

theorem SHA256_Sum_length (msg : Bytes) : (sha2.SHA256.Sum msg).length = 32 := by
  simp [sha2.Variant.Sum, List.flatMap, bigEndian_length, sha2.SHA256, sha2.Variant.wordBytes]

theorem SHA384_Sum_length (msg : Bytes) : (sha2.SHA384.Sum msg).length = 48 := by
  simp [sha2.Variant.Sum, List.flatMap, bigEndian_length, sha2.SHA384, sha2.Variant.wordBytes]

theorem tag_length (v : sha2.Variant) (key ss : Bytes) :
    (tag v.toHash key ss).length = (v.Sum (((hmac.New v.toHash key).opad) ++
      v.Sum ((hmac.New v.toHash key).ipad ++ ss))).length := by
  simp [tag, hmac.HMAC.Sum, hmac.HMAC.Write, hmac.New, sha2.Variant.toHash]

/-- The facts about a signature segment with one character replaced by another symbol of
the alphabet: it is again a string of symbols, of six-bit values that differ from the
original ones at that position only. -/
theorem replaced_segment (T : Bytes) (i : Nat) (c : Byte) (hi : i < (EncodeSegment T).length)
    (hc : c ∈ encodeURL) (hne : c ≠ (EncodeSegment T).getD i 0) :
    URLEncoding.decodeMap c < 64 ∧
    URLEncoding.decodeMap c ≠ (sextets T).getD i 0 ∧
    URLEncoding.decodeMap ((EncodeSegment T).getD i 0) = (sextets T).getD i 0 ∧
    i < (sextets T).length ∧
    (46 : Byte) ∉ (EncodeSegment T).set i c ∧
    DecodeSegment ((EncodeSegment T).set i c) =
      .ok (unsextets ((sextets T).set i (URLEncoding.decodeMap c))) := by
  have hk : URLEncoding.decodeMap c < 64 := decodeMap_lt_of_mem URLEncoding URLEncoding_wf c hc
  have hsym : URLEncoding.sym (URLEncoding.decodeMap c) = c := sym_decodeMap URLEncoding c hc
  have hi' : i < (sextets T).length := by
    rw [EncodeSegment_eq_map, List.length_map] at hi; exact hi
  have hsx : (sextets T).getD i 0 < 64 := by
    rw [List.getD_eq_getElem _ _ hi']
    exact sextets_lt T _ (List.getElem_mem hi')
  have hget : (EncodeSegment T).getD i 0 = URLEncoding.sym ((sextets T).getD i 0) := by
    rw [List.getD_eq_getElem _ _ hi, List.getD_eq_getElem _ _ hi']
    simp only [EncodeSegment_eq_map, List.getElem_map]
  have hset : (EncodeSegment T).set i c =
      ((sextets T).set i (URLEncoding.decodeMap c)).map URLEncoding.sym := by
    rw [List.map_set, hsym, EncodeSegment_eq_map]
  have hlt : ∀ s ∈ (sextets T).set i (URLEncoding.decodeMap c), s < 64 := by
    intro s hs
    rcases List.mem_or_eq_of_mem_set hs with h | h
    · exact sextets_lt T s h
    · rw [h]; exact hk
  refine ⟨hk, ?_, ?_, hi', ?_, ?_⟩
  · intro h
    apply hne
    rw [hget, ← h, hsym]
  · rw [hget]
    exact decodeMap_sym URLEncoding URLEncoding_wf _ hsx
  · intro h
    rcases List.mem_or_eq_of_mem_set h with h | h
    · exact EncodeSegment_no_dot T h
    · exact not_mem_encodeURL_dot (h ▸ hc)
  · rw [hset]
    apply DecodeSegment_map_sym _ hlt
    rw [List.length_set]
    exact sextets_length_mod T

end jwt

open jwt base64

/-! ## Claims about the tokens -/

/-- C3: a token string whose header does not declare `HS512` (it declares another
algorithm, or none that can be read) makes `ParseSignedToken` return an error, whatever its
other segments, the key and the clock are; and for such a token the key function never
hands the key to the parser. -/
theorem C3_other_algorithm_rejected {F : Type} (J : JSON (UserClaims F)) (conf : AppConfig)
    (now : Int) (tok : Bytes) (halg : declaredAlg J tok ≠ some SigningMethod.HS512.Alg) :
    (∃ e, conf.ParseSignedToken J now tok = .error e) ∧
    (∀ t p0 p1 p2 key, ParseUnverified J tok = .ok (t, p0, p1, p2) →
      conf.keyFunc t ≠ .ok key) := by
  refine ⟨ParseSignedToken_error_of_alg J conf now tok halg, ?_⟩
  intro t p0 p1 p2 key hu hk
  have hs := ParseUnverified_split J tok t p0 p1 p2 hu
  obtain ⟨_, _, _, ⟨hb, hd, hh⟩, hg, _⟩ := ParseUnverified_ok J tok p0 p1 p2 hs t p0 p1 p2 hu
  obtain ⟨hm, _⟩ := keyFunc_ok conf t key hk
  have ha : t.Alg = SigningMethod.HS512.Alg := by
    rw [← GetSigningMethod_some _ _ hg, hm]
  apply halg
  unfold declaredAlg
  rw [hs]
  simp only [hd, hh, ha]

/-- C3 at a concrete input: a token signed with `HS256` under the same key is rejected. -/
theorem C3_other_algorithm_rejected_witness :
    declaredAlg expOnlyJSON sampleTokenHS256 = some (ascii "HS256") ∧
    ∃ e, secretConf.ParseSignedToken expOnlyJSON sampleNow sampleTokenHS256 = .error e :=
  ⟨by decide!, (C3_other_algorithm_rejected expOnlyJSON secretConf sampleNow sampleTokenHS256
    (by decide!)).1⟩

end AuthMethods

namespace AuthMethods

open jwt base64

/-- C4, as the code has it: in a token `CreateSignedToken` returned, with the segments
`h`, `p` and `sig`, replacing a character of the signature segment by a different
character of the base64url alphabet makes `ParseSignedToken` under the same key return an
error, with one exception.  When the method is `HS512`, the position is the last one and the
new character has the same two high-order bits in its six-bit value as the original one, the
replaced token is treated exactly as the original token: the four low-order bits of the
last character are padding bits, which the decoder does not read. -/
theorem C4_replaced_signature_character {F : Type} (J : JSON (UserClaims F))
    (conf : AppConfig) (uc : UserClaims F) (now : Int) (tok h p sig : Bytes)
    (hc : conf.CreateSignedToken J uc = .ok tok) (hs : Split 46 tok = [h, p, sig])
    (i : Nat) (c : Byte) (hi : i < sig.length) (hcm : c ∈ encodeURL)
    (hne : c ≠ sig.getD i 0) :
    tok = Join 46 [h, p, sig] ∧
    if conf.JwtConf.JwtKeyMethod = .HS512 ∧ i + 1 = sig.length ∧
        URLEncoding.decodeMap c / 16 = URLEncoding.decodeMap (sig.getD i 0) / 16 then
      conf.ParseSignedToken J now (Join 46 [h, p, sig.set i c]) =
        conf.ParseSignedToken J now tok
    else
      ∃ e, conf.ParseSignedToken J now (Join 46 [h, p, sig.set i c]) = .error e := by
  obtain ⟨js, hash, _, hh, rfl⟩ := (CreateSignedToken_ok_iff J conf uc tok).mp hc
  rw [Split_Join3 46 _ _ _ (EncodeSegment_no_dot _) (EncodeSegment_no_dot _)
    (EncodeSegment_no_dot _)] at hs
  simp only [List.cons.injEq, and_true] at hs
  obtain ⟨hhd, hpd, hsd⟩ := hs
  rw [hhd, hpd] at hsd ⊢
  have hh0 : (46 : Byte) ∉ h := hhd ▸ EncodeSegment_no_dot _
  have hp0 : (46 : Byte) ∉ p := hpd ▸ EncodeSegment_no_dot _
  generalize hT : tag hash conf.Key (Join 46 [h, p]) = T at hsd ⊢
  subst hsd
  have hsplit : Split 46 (Join 46 [h, p, EncodeSegment T]) = [h, p, EncodeSegment T] :=
    Split_Join3 46 _ _ _ hh0 hp0 (EncodeSegment_no_dot _)
  refine ⟨rfl, ?_⟩
  obtain ⟨hk, hkne, hdm, hi', hdot, hdec⟩ := replaced_segment T i c hi hcm hne
  have hsplit' : Split 46 (Join 46 [h, p, (EncodeSegment T).set i c]) =
      [h, p, (EncodeSegment T).set i c] := Split_Join3 46 _ _ _ hh0 hp0 hdot
  have hlen : (sextets T).length = (EncodeSegment T).length := by
    rw [EncodeSegment_eq_map, List.length_map]
  rw [hdm, ← hlen]
  -- the case of `HS512`: the six-bit values end in a quantum of two values
  have h512 : conf.JwtConf.JwtKeyMethod = .HS512 →
      T = tag sha2.SHA512.toHash conf.Key (Join 46 [h, p]) ∧
      (unsextets ((sextets T).set i (URLEncoding.decodeMap c)) = T ↔
        (i + 1 = (sextets T).length ∧
          URLEncoding.decodeMap c / 16 = (sextets T).getD i 0 / 16)) := by
    intro hm
    rw [hm] at hh
    have hhash : hash = sha2.SHA512.toHash := by
      simp only [SigningMethod.hmacHash, Option.some.injEq] at hh
      exact hh.symm
    have hTl : T.length = 64 := by rw [← hT, hhash]; exact tag_SHA512_length _ _
    have hsl : (sextets T).length % 4 = 2 := by rw [sextets_length, hTl]; decide
    refine ⟨by rw [← hT, hhash], ?_⟩
    have := unsextets_set (sextets T) (sextets_lt T) hsl i _ hi' hk hkne
    rw [unsextets_sextets] at this
    exact this
  split
  · rename_i hcond
    obtain ⟨hm, hlast, hbits⟩ := hcond
    apply ParseSignedToken_congr J conf now _ _ h p _ _ hsplit hsplit'
    rw [hdec, DecodeSegment_EncodeSegment, ((h512 hm).2).mpr ⟨hlast, hbits⟩]
  · rename_i hcond
    apply ParseSignedToken_error_of_bad_sig J conf now _ h p _ hsplit'
    rw [hdec]
    intro heq
    have heq' := Except.ok.inj heq
    have hl := congrArg List.length heq'
    rw [unsextets_length, List.length_set, tag_SHA512_length] at hl
    rcases (hmacHash_some_iff conf.JwtConf.JwtKeyMethod).mp ⟨hash, hh⟩ with hm | hm | hm
    · rw [hm] at hh
      have hhash : hash = sha2.SHA256.toHash := by
        simp only [SigningMethod.hmacHash, Option.some.injEq] at hh
        exact hh.symm
      have hTl : T.length = 32 := by
        rw [← hT, hhash, tag_length]; exact SHA256_Sum_length _
      rw [sextets_length, hTl] at hl
      simp at hl
    · rw [hm] at hh
      have hhash : hash = sha2.SHA384.toHash := by
        simp only [SigningMethod.hmacHash, Option.some.injEq] at hh
        exact hh.symm
      have hTl : T.length = 48 := by
        rw [← hT, hhash, tag_length]; exact SHA384_Sum_length _
      rw [sextets_length, hTl] at hl
      simp at hl
    · obtain ⟨hTe, hiff⟩ := h512 hm
      rw [← hTe] at heq'
      exact hcond ⟨hm, hiff.mp heq'⟩

/-- C4 at a concrete input: in the token of `sampleClaims` under the key `secret`, the
first character of the signature segment, `b`, is replaced by `A`; the token is
rejected. -/
theorem C4_replaced_signature_character_witness :
    secretConf.CreateSignedToken expOnlyJSON sampleClaims = .ok sampleToken ∧
    brokenToken = sampleToken.set 74 65 ∧ sampleToken.getD 74 0 = 98 ∧
    ∃ e, secretConf.ParseSignedToken expOnlyJSON sampleNow brokenToken = .error e := by
  have hc : secretConf.CreateSignedToken expOnlyJSON sampleClaims = .ok sampleToken := by
    decide!
  have h := (C4_replaced_signature_character expOnlyJSON secretConf sampleClaims sampleNow
    sampleToken (ascii "eyJhbGciOiJIUzUxMiIsInR5cCI6IkpXVCJ9")
    (ascii "eyJleHAiOjQxMDI0NDQ4MDAwMDAwMDAwMDB9")
    (ascii ("bfggCu3QW3ccefnYPqlsdoRqGmsmcVl231eny4SVn1taSl-RvHUv5B0Yu_t-hRpGYhKqGVF05Ugwhbzb" ++
      "V3vVzQ"))
    hc (by decide!) 0 65 (by decide!) (by decide!) (by decide!)).2
  rw [if_neg (by decide!)] at h
  have e : Join 46 [ascii "eyJhbGciOiJIUzUxMiIsInR5cCI6IkpXVCJ9",
      ascii "eyJleHAiOjQxMDI0NDQ4MDAwMDAwMDAwMDB9",
      (ascii ("bfggCu3QW3ccefnYPqlsdoRqGmsmcVl231eny4SVn1taSl-RvHUv5B0Yu_t-hRpGYhKqGVF05Ugwhbzb" ++
        "V3vVzQ")).set 0 65] = brokenToken := by decide!
  rw [e] at h
  exact ⟨hc, by decide!, by decide!, h⟩

/-- C4 fails at the last character: the token of `sampleClaims` under the key `secret` ends
in `Q`; with `R` in its place (a different character of the alphabet) `ParseSignedToken`
under the same key returns the claims and no error. -/
theorem C4_last_character_accepted :
    secretConf.CreateSignedToken expOnlyJSON sampleClaims = .ok sampleToken ∧
    tamperedToken = sampleToken.set (sampleToken.length - 1) 82 ∧
    sampleToken.getD (sampleToken.length - 1) 0 = 81 ∧
    (82 : Byte) ∈ encodeURL ∧
    secretConf.ParseSignedToken expOnlyJSON sampleNow tamperedToken = .ok sampleClaims := by
  decide!

/-- C9, the code at the failing input: with `HS256` stored in the configuration,
`CreateSignedToken` succeeds and returns a token of three segments whose header declares
`HS256`, not `HS512`; `ParseSignedToken` of the same configuration, at a time before the
claims expire, refuses this token for its algorithm. -/
theorem C9_header_declares_stored_method :
    hs256Conf.JwtConf.JwtKeyMethod = .HS256 ∧
    hs256Conf.CreateSignedToken expOnlyJSON sampleClaims = .ok sampleTokenHS256 ∧
    Split 46 sampleTokenHS256 =
      [ascii "eyJhbGciOiJIUzI1NiIsInR5cCI6IkpXVCJ9",
       ascii "eyJleHAiOjQxMDI0NDQ4MDAwMDAwMDAwMDB9",
       ascii "kvqzVOhEASEsLjRCas9PawUCq2PUmm7QSAmPHL47sZI"] ∧
    DecodeSegment (ascii "eyJhbGciOiJIUzI1NiIsInR5cCI6IkpXVCJ9") =
      .ok (ascii "\x7b\"alg\":\"HS256\",\"typ\":\"JWT\"\x7d") ∧
    declaredAlg expOnlyJSON sampleTokenHS256 = some (ascii "HS256") ∧
    hs256Conf.ParseSignedToken expOnlyJSON sampleNow sampleTokenHS256 =
      .error "error in parsing token : invalid signing signing algorithm" := by
  decide!

end AuthMethods
